import Mathlib

/-!
Verification of the retrieval-fusion / reranking / evaluation-metrics core of
the shopping-assistant repository.

The Python sources are shallowly embedded:
* `chalicelib/llm/metrics.py` (`RetrievalMetrics`) as `relevanceMap`,
  `binaryRelevance`, `numRelevant`, `recall_at_k`, `ndcg_at_k`, `mrr`,
  `hit_rate_at_k`, `computeAllMetrics`;
* `chalicelib/indexers/qdrant_indexer.py` (`QdrantIndexer.hybrid_search`) as
  `procDense`, `procSparse`, `fusedCandidates`, `hybridSearch`;
* `chalicelib/llm/reranker.py` (`LLMReranker.rerank`) as `rerank`.

Python floats are modelled by exact arithmetic: relevance scores and RRF
scores are rationals, and the `log2`-based DCG values are reals.  Python
dicts are modelled by insertion-ordered association lists (`dictInsert`
keeps the first-insertion position of a key and overwrites its value,
exactly as CPython dicts do).  Python list slicing `l[:n]` is `pyTake`.
-/

namespace ShoppingAssistant

/-- Python `l[:n]`: for `n ≥ 0` the first `n` elements, for `n < 0` all but
the last `-n` elements (clamped at the empty list). -/
def pyTake (n : ℤ) (l : List α) : List α :=
  if 0 ≤ n then l.take n.toNat else l.take ((l.length : ℤ) + n).toNat

/-! ### Insertion-ordered dictionaries (CPython dict semantics) -/

/-- `k in m` for an insertion-ordered dict. -/
def dictContains (m : List (String × β)) (k : String) : Bool :=
  m.any (fun p => p.1 == k)

/-- `m[k] = v`: overwrite the value in place if the key is present
(keeping its position), otherwise append the binding at the end. -/
def dictInsert (m : List (String × β)) (k : String) (v : β) : List (String × β) :=
  if dictContains m k then m.map (fun p => if p.1 = k then (p.1, v) else p)
  else m ++ [(k, v)]

/-- `m.get(k)` returning an option; keys are unique by construction so the
first binding found is the binding. -/
def dictGet? (m : List (String × β)) (k : String) : Option β :=
  match m with
  | [] => none
  | p :: m' => if p.1 = k then some p.2 else dictGet? m' k

/-! ### Data model of `metrics.py` -/

/-- A retrieved document as consumed by `RetrievalMetrics._get_doc_id`:
the identifier fields that may or may not be present, plus the text. -/
structure RetrievedDoc where
  doc_id : Option String
  id : Option String
  metaId : Option String
  text : String
deriving DecidableEq

/-- `RerankerJudgment` from `models/data_objects.py`: a pseudo ground-truth
relevance label for one document. -/
structure RerankerJudgment where
  doc_id : String
  relevance_score : ℚ
deriving DecidableEq

/-- `RetrievalMetrics._get_doc_id`: try `doc_id`, then `id`, then
`metadata.id`, falling back to the text. -/
def getDocId (doc : RetrievedDoc) : String :=
  match doc.doc_id with
  | some s => s
  | none =>
    match doc.id with
    | some s => s
    | none =>
      match doc.metaId with
      | some s => s
      | none => doc.text

/-- The `relevance_map` dict comprehension in `compute_all_metrics`:
`doc_id -> relevance_score`, later judgments overwriting earlier ones. -/
def relevanceMap (js : List RerankerJudgment) : List (String × ℚ) :=
  js.foldl (fun m j => dictInsert m j.doc_id j.relevance_score) []

/-- Relevance scores of the retrieved docs in retrieval order
(`relevance_map.get(doc_id, 0.0)`). -/
def retrievedRelevances (retrieved : List RetrievedDoc) (js : List RerankerJudgment) :
    List ℚ :=
  retrieved.map (fun doc => (dictGet? (relevanceMap js) (getDocId doc)).getD 0)

/-- Binary relevance labels: `1 if score >= threshold else 0`. -/
def binaryRelevance (threshold : ℚ) (retrieved : List RetrievedDoc)
    (js : List RerankerJudgment) : List ℕ :=
  (retrievedRelevances retrieved js).map (fun s => if threshold ≤ s then 1 else 0)

/-- `num_relevant`: the count of values of the relevance map that meet the
threshold. -/
def numRelevant (threshold : ℚ) (js : List RerankerJudgment) : ℕ :=
  ((relevanceMap js).map Prod.snd).countP (fun s => decide (threshold ≤ s))

/-- `RetrievalMetrics.recall_at_k`. -/
def recall_at_k (binary : List ℕ) (num_relevant : ℕ) (k : ℤ) : ℚ :=
  if num_relevant = 0 then 0
  else ((pyTake k binary).sum : ℚ) / (num_relevant : ℚ)

/-- `RetrievalMetrics.hit_rate_at_k`: `1.0 if any(top_k) else 0.0`. -/
def hit_rate_at_k (binary : List ℕ) (k : ℤ) : ℚ :=
  if (pyTake k binary).any (fun r => r != 0) then 1 else 0

/-- The loop of `RetrievalMetrics.mrr`, carrying the 1-based position. -/
def mrrAux (i : ℕ) : List ℕ → ℚ
  | [] => 0
  | r :: rest => if r = 1 then 1 / (i : ℚ) else mrrAux (i + 1) rest

/-- `RetrievalMetrics.mrr`: reciprocal of the 1-based rank of the first
relevant label. -/
def mrr (binary : List ℕ) : ℚ := mrrAux 1 binary

/-- The loop of `RetrievalMetrics._compute_dcg`, carrying the 1-based
position `p`; each element contributes `rel / log2(p+1)`. -/
noncomputable def dcgAux (p : ℕ) : List ℚ → ℝ
  | [] => 0
  | x :: xs => (x : ℝ) / Real.logb 2 ((p : ℝ) + 1) + dcgAux (p + 1) xs

/-- `RetrievalMetrics._compute_dcg`. -/
noncomputable def computeDCG (l : List ℚ) : ℝ := dcgAux 1 l

/-- Python `sorted(l, reverse=True)` on rationals. -/
def sortedDesc (l : List ℚ) : List ℚ := l.insertionSort (fun a b => b ≤ a)

/-- The DCG discount weight at 1-based position `q`: `1 / log2(q+1)`. -/
noncomputable def dw (q : ℕ) : ℝ := (Real.logb 2 ((q : ℝ) + 1))⁻¹

/-- DCG with an arbitrary position-weight function, used to reason about
truncation and reordering of `_compute_dcg`. -/
noncomputable def wdcg (w : ℕ → ℝ) : ℕ → List ℚ → ℝ
  | _, [] => 0
  | p, x :: xs => (x : ℝ) * w p + wdcg w (p + 1) xs

/-- `RetrievalMetrics.ndcg_at_k`. -/
noncomputable def ndcg_at_k (relevance_scores : List ℚ) (k : ℤ) : ℝ :=
  if relevance_scores = [] ∨ k ≤ 0 then 0
  else
    let dcg := computeDCG (pyTake k relevance_scores)
    let idcg := computeDCG (pyTake k (sortedDesc relevance_scores))
    if idcg = 0 then 0 else dcg / idcg

/-- `RetrievalMetricsResult`: metric fields are floats, the two summary
fields are counts. -/
structure RetrievalMetricsResult where
  recall_at_5 : ℝ
  recall_at_10 : ℝ
  recall_at_15 : ℝ
  ndcg_at_5 : ℝ
  ndcg_at_10 : ℝ
  ndcg_at_15 : ℝ
  mrr : ℝ
  hit_rate_at_5 : ℝ
  hit_rate_at_10 : ℝ
  hit_rate_at_15 : ℝ
  num_relevant_docs : ℕ
  num_retrieved_docs : ℕ

/-- `RetrievalMetrics._zero_metrics`. -/
def zeroMetrics : RetrievalMetricsResult := ⟨0, 0, 0, 0, 0, 0, 0, 0, 0, 0, 0, 0⟩

/-- `RetrievalMetrics.compute_all_metrics`: the `metrics` dict is keyed by
the f-strings `recall_at_{k}`, `ndcg_at_{k}`, `hit_rate_at_{k}` plus `mrr`,
and the result reads the keys for K = 5, 10, 15 with default `0.0`. -/
noncomputable def computeAllMetrics (threshold : ℚ) (retrieved : List RetrievedDoc)
    (js : List RerankerJudgment) (k_values : List ℤ) : RetrievalMetricsResult :=
  if retrieved = [] ∨ js = [] then zeroMetrics
  else
    let rels := retrievedRelevances retrieved js
    let binary := binaryRelevance threshold retrieved js
    let nrel := numRelevant threshold js
    let metrics : List (String × ℝ) := k_values.foldl (fun m k =>
      dictInsert
        (dictInsert
          (dictInsert m ("recall_at_" ++ toString k)
            ((recall_at_k binary nrel k : ℚ) : ℝ))
          ("ndcg_at_" ++ toString k) (ndcg_at_k rels k))
        ("hit_rate_at_" ++ toString k) ((hit_rate_at_k binary k : ℚ) : ℝ)) []
    let metrics2 := dictInsert metrics "mrr" ((mrr binary : ℚ) : ℝ)
    ⟨(dictGet? metrics2 "recall_at_5").getD 0,
     (dictGet? metrics2 "recall_at_10").getD 0,
     (dictGet? metrics2 "recall_at_15").getD 0,
     (dictGet? metrics2 "ndcg_at_5").getD 0,
     (dictGet? metrics2 "ndcg_at_10").getD 0,
     (dictGet? metrics2 "ndcg_at_15").getD 0,
     (dictGet? metrics2 "mrr").getD 0,
     (dictGet? metrics2 "hit_rate_at_5").getD 0,
     (dictGet? metrics2 "hit_rate_at_10").getD 0,
     (dictGet? metrics2 "hit_rate_at_15").getD 0,
     nrel, retrieved.length⟩

/-- The relevance score of the last judgment for a given doc id, if any:
what CPython's last-wins dict update leaves in `relevance_map`. -/
def lastRel (js : List RerankerJudgment) (d : String) : Option ℚ :=
  (js.reverse.find? (fun j => j.doc_id == d)).map (fun j => j.relevance_score)

/-! ### Data model of `qdrant_indexer.py::hybrid_search` -/

/-- The payload of a Qdrant point: the chunk text and its metadata. -/
structure Payload where
  text : String
  meta : String
deriving DecidableEq

/-- A point returned by one channel's `query_points` call. -/
structure Hit where
  id : String
  payload : Payload
deriving DecidableEq

/-- One value of the `rrf_scores` dict: the payload plus the two partial
RRF scores. -/
structure RrfEntry where
  payload : Payload
  rrf_dense : ℚ
  rrf_sparse : ℚ
deriving DecidableEq

/-- The sparse-result update: if the id is present, set only `rrf_sparse`
in place; otherwise append a fresh entry with `rrf_dense = 0`. -/
def rrfUpdateSparse (m : List (String × RrfEntry)) (k : String) (pl : Payload)
    (s : ℚ) : List (String × RrfEntry) :=
  if dictContains m k then
    m.map (fun p => if p.1 = k then (p.1, ⟨p.2.payload, p.2.rrf_dense, s⟩) else p)
  else m ++ [(k, ⟨pl, 0, s⟩)]

/-- The dense-results loop: `enumerate(dense_results, start=r)`; hits with a
falsy payload text are skipped but still consume a rank. -/
def procDense (k : ℤ) : ℕ → List Hit → List (String × RrfEntry) → List (String × RrfEntry)
  | _, [], m => m
  | r, h :: hs, m =>
    procDense k (r + 1) hs
      (if h.payload.text = "" then m
       else dictInsert m h.id ⟨h.payload, 1 / ((k : ℚ) + (r : ℚ)), 0⟩)

/-- The sparse-results loop. -/
def procSparse (k : ℤ) : ℕ → List Hit → List (String × RrfEntry) → List (String × RrfEntry)
  | _, [], m => m
  | r, h :: hs, m =>
    procSparse k (r + 1) hs
      (if h.payload.text = "" then m
       else rrfUpdateSparse m h.id h.payload (1 / ((k : ℚ) + (r : ℚ))))

/-- The `rrf_scores` dict after both loops, ranks starting at 1. -/
def rrfScores (dense sparse : List Hit) (k : ℤ) : List (String × RrfEntry) :=
  procSparse k 1 sparse (procDense k 1 dense [])

/-- The association list the dense loop produces when no hit is skipped and
no id repeats: each hit keyed by its id with its rank-based partial score. -/
def dmap (k : ℤ) : ℕ → List Hit → List (String × RrfEntry)
  | _, [] => []
  | r, h :: hs => (h.id, ⟨h.payload, 1 / ((k : ℚ) + (r : ℚ)), 0⟩) :: dmap k (r + 1) hs

/-- The entries the sparse loop appends: hits whose id is not among `ks`
(the keys already present), keyed by id with their rank-based sparse score. -/
def smap (ks : List String) (k : ℤ) : ℕ → List Hit → List (String × RrfEntry)
  | _, [] => []
  | r, h :: hs =>
    if h.id ∈ ks then smap ks k (r + 1) hs
    else (h.id, ⟨h.payload, 0, 1 / ((k : ℚ) + (r : ℚ))⟩) :: smap ks k (r + 1) hs

/-- The in-place effect of the sparse loop on an entry already present:
if the id occurs in the sparse results, `rrf_sparse` becomes the score of
its first occurrence there, otherwise the entry is unchanged. -/
def sparseUpd (k : ℤ) (r : ℕ) (hs : List Hit) (d : String) (e : RrfEntry) : RrfEntry :=
  match hs.findIdx? (fun h => h.id == d) with
  | some i => ⟨e.payload, e.rrf_dense, 1 / ((k : ℚ) + (r : ℚ) + (i : ℚ))⟩
  | none => e

/-- One element of the `results` list: id, payload, fused score and the two
partial scores. -/
structure Cand where
  doc_id : String
  payload : Payload
  score : ℚ
  rrf_dense : ℚ
  rrf_sparse : ℚ
deriving DecidableEq

/-- The `results` list before sorting: the dict items in insertion order,
each given its final weighted score `alpha * rrf_dense + (1-alpha) * rrf_sparse`. -/
def fusedCandidates (dense sparse : List Hit) (alpha : ℚ) (k : ℤ) : List Cand :=
  (rrfScores dense sparse k).map (fun p =>
    ⟨p.1, p.2.payload, alpha * p.2.rrf_dense + (1 - alpha) * p.2.rrf_sparse,
     p.2.rrf_dense, p.2.rrf_sparse⟩)

/-- The comparison used by `results.sort(key=lambda x: x["score"], reverse=True)`:
a stable sort placing higher scores first. -/
def scoreLE (a b : Cand) : Bool := decide (b.score ≤ a.score)

/-- `hybrid_search` after retrieval: sort the fused results by descending
score (Python's sort is stable) and keep the top `limit`. -/
def hybridSearch (dense sparse : List Hit) (alpha : ℚ) (k : ℤ) (limit : ℤ) :
    List Cand :=
  pyTake limit ((fusedCandidates dense sparse alpha k).mergeSort scoreLE)

/-- The final `SearchResult` objects (text, metadata, fused score). -/
structure SearchResult where
  text : String
  meta : String
  score : ℚ
deriving DecidableEq

/-- The return value of `hybrid_search`. -/
def searchResults (dense sparse : List Hit) (alpha : ℚ) (k : ℤ) (limit : ℤ) :
    List SearchResult :=
  (hybridSearch dense sparse alpha k limit).map (fun c =>
    ⟨c.payload.text, c.payload.meta, c.score⟩)

/-- The documents of the fused candidate pool in first-encounter order:
the dense ids followed by the sparse-only ids. -/
def candIds (dense sparse : List Hit) : List String :=
  dense.map Hit.id ++ (sparse.map Hit.id).filter (fun d => d ∉ dense.map Hit.id)

/-- The RRF partial score of a document for one channel result list:
`1/(k + r)` for its 1-based rank `r` there, `0` if absent. -/
def rrfTerm (k : ℤ) (hits : List Hit) (d : String) : ℚ :=
  match hits.findIdx? (fun h => h.id == d) with
  | some i => 1 / ((k : ℚ) + ((i : ℚ) + 1))
  | none => 0

/-- The payload a document ends up with in the `rrf_scores` dict: the dense
hit's payload if the id occurs in the dense results, else the sparse hit's. -/
def payloadOf (dense sparse : List Hit) (d : String) : Payload :=
  match dense.find? (fun h => h.id == d) with
  | some h => h.payload
  | none =>
    match sparse.find? (fun h => h.id == d) with
    | some h => h.payload
    | none => ⟨"", ""⟩

/-- The fused candidate of a document, written in terms of its ranks in the
two channel lists. -/
def mkCand (dense sparse : List Hit) (alpha : ℚ) (k : ℤ) (d : String) : Cand :=
  ⟨d, payloadOf dense sparse d,
   alpha * rrfTerm k dense d + (1 - alpha) * rrfTerm k sparse d,
   rrfTerm k dense d, rrfTerm k sparse d⟩

/-- A small concrete dense channel result used to exercise the fusion
theorems on explicit inputs. -/
def denseW : List Hit := [⟨"a", ⟨"ta", "meta"⟩⟩, ⟨"b", ⟨"tb", "meta"⟩⟩]

/-- A small concrete sparse channel result sharing one document with
`denseW`. -/
def sparseW : List Hit := [⟨"b", ⟨"tb", "meta"⟩⟩, ⟨"c", ⟨"tc", "meta"⟩⟩]

/-! ### Data model of `reranker.py::LLMReranker.rerank` -/

/-- `LLMReranker.rerank`.  The reranker's only state is
`last_relevance_scores`.  The guard `if not results or len(results) <= limit`
returns `results[:limit]` without touching that state; the LLM branch is an
arbitrary parameter `inner` (its behaviour is irrelevant to the guard). -/
def rerank (inner : String → List α → ℤ → List RerankerJudgment →
      List α × List RerankerJudgment)
    (query : String) (results : List α) (limit : ℤ)
    (state : List RerankerJudgment) : List α × List RerankerJudgment :=
  if results.length = 0 ∨ (results.length : ℤ) ≤ limit then (pyTake limit results, state)
  else inner query results limit state

/-! ### Helper lemmas -/

theorem mrrAux_eq_findIdx (l : List ℕ) : ∀ i : ℕ,
    mrrAux i l =
      ((l.findIdx? (fun r => r == 1)).map
        (fun j : ℕ => 1 / ((i : ℚ) + (j : ℚ)))).getD 0 := by
  induction l with
  | nil => intro i; simp [mrrAux]
  | cons r rest ih =>
    intro i
    by_cases hr : r = 1
    · subst hr
      simp [mrrAux, List.findIdx?_cons]
    · have hr' : (r == 1) = false := by simp [hr]
      rw [mrrAux, if_neg hr, ih (i + 1)]
      simp only [List.findIdx?_cons, hr', Bool.false_eq_true, if_false,
        List.findIdx?_succ]
      cases rest.findIdx? (fun r => r == 1) with
      | none => rfl
      | some j =>
        simp only [Option.map_some', Option.getD_some, Function.comp_apply]
        push_cast
        ring_nf

theorem dictContains_append (m m' : List (String × β)) (d : String) :
    dictContains (m ++ m') d = (dictContains m d || dictContains m' d) := by
  simp [dictContains, List.any_append]

theorem dictContains_eq_isSome (m : List (String × β)) (d : String) :
    dictContains m d = (dictGet? m d).isSome := by
  induction m with
  | nil => rfl
  | cons p m ih =>
    by_cases h : p.1 = d
    · simp [dictContains, dictGet?, h]
    · have h' : (p.1 == d) = false := by simp [h]
      simp [dictContains, dictGet?, h, h'] at ih ⊢
      simpa [dictContains] using ih

theorem dictGet?_append (m m' : List (String × β)) (d : String) :
    dictGet? (m ++ m') d = (dictGet? m d).or (dictGet? m' d) := by
  induction m with
  | nil => rfl
  | cons p m ih =>
    by_cases h : p.1 = d
    · simp [dictGet?, h]
    · simp [dictGet?, h, ih]

theorem dictGet?_cons (q : String × β) (m : List (String × β)) (d : String) :
    dictGet? (q :: m) d = if q.1 = d then some q.2 else dictGet? m d := rfl

theorem dictGet?_map_update_ne (m : List (String × β)) (k : String) (v : β)
    (d : String) (hd : d ≠ k) :
    dictGet? (m.map (fun p => if p.1 = k then (p.1, v) else p)) d = dictGet? m d := by
  induction m with
  | nil => rfl
  | cons p m ih =>
    by_cases h : p.1 = k
    · have hpd : ¬(p.1 = d) := by rw [h]; exact fun e => hd e.symm
      rw [List.map_cons, if_pos h, dictGet?_cons, dictGet?_cons]
      rw [if_neg hpd, if_neg hpd, ih]
    · rw [List.map_cons, if_neg h, dictGet?_cons, dictGet?_cons, ih]

theorem dictGet?_map_update_self (m : List (String × β)) (k : String) (v : β) :
    dictGet? (m.map (fun p => if p.1 = k then (p.1, v) else p)) k =
      (dictGet? m k).map (fun _ => v) := by
  induction m with
  | nil => rfl
  | cons p m ih =>
    by_cases h : p.1 = k
    · rw [List.map_cons, if_pos h, dictGet?_cons, dictGet?_cons]
      rw [if_pos h, if_pos h]
      rfl
    · rw [List.map_cons, if_neg h, dictGet?_cons, dictGet?_cons]
      rw [if_neg h, if_neg h, ih]

theorem dictGet?_dictInsert (m : List (String × β)) (k : String) (v : β)
    (d : String) :
    dictGet? (dictInsert m k v) d = if k = d then some v else dictGet? m d := by
  unfold dictInsert
  by_cases hc : dictContains m k
  · rw [if_pos hc]
    by_cases hd : k = d
    · subst hd
      rw [if_pos rfl, dictGet?_map_update_self]
      rw [dictContains_eq_isSome] at hc
      cases hget : dictGet? m k with
      | none => rw [hget] at hc; simp at hc
      | some w => simp
    · rw [if_neg hd, dictGet?_map_update_ne]
      exact fun e => hd e.symm
  · rw [if_neg hc, dictGet?_append]
    by_cases hd : k = d
    · subst hd
      rw [dictContains_eq_isSome] at hc
      cases hget : dictGet? m k with
      | none => simp [dictGet?]
      | some w => rw [hget] at hc; simp at hc
    · have hone : dictGet? [(k, v)] d = none := by simp [dictGet?, hd]
      rw [hone, if_neg hd]
      cases dictGet? m d <;> rfl

theorem keys_dictInsert (m : List (String × β)) (k : String) (v : β) :
    (dictInsert m k v).map Prod.fst =
      if dictContains m k then m.map Prod.fst else m.map Prod.fst ++ [k] := by
  unfold dictInsert
  by_cases hc : dictContains m k
  · rw [if_pos hc, if_pos hc, List.map_map]
    refine List.map_congr_left (fun p _ => ?_)
    by_cases h : p.1 = k <;> simp [h]
  · rw [if_neg hc, if_neg hc, List.map_append]
    rfl

theorem not_mem_keys_of_not_contains (m : List (String × β)) (k : String)
    (hc : dictContains m k = false) : k ∉ m.map Prod.fst := by
  intro hmem
  obtain ⟨p, hp, hpk⟩ := List.mem_map.mp hmem
  have hany : m.any (fun p => p.1 == k) = true :=
    List.any_eq_true.mpr ⟨p, hp, by simp [hpk]⟩
  simp [dictContains, hany] at hc

theorem keys_nodup_dictInsert (m : List (String × β)) (k : String) (v : β)
    (h : (m.map Prod.fst).Nodup) : ((dictInsert m k v).map Prod.fst).Nodup := by
  rw [keys_dictInsert]
  by_cases hc : dictContains m k
  · rw [if_pos hc]; exact h
  · rw [if_neg hc]
    have hk : k ∉ m.map Prod.fst :=
      not_mem_keys_of_not_contains m k (by simpa using hc)
    simp [List.nodup_append, h, hk]

theorem lastRel_nil (d : String) : lastRel [] d = none := rfl

theorem lastRel_cons (j : RerankerJudgment) (js : List RerankerJudgment)
    (d : String) :
    lastRel (j :: js) d =
      (lastRel js d).or (if j.doc_id = d then some j.relevance_score else none) := by
  unfold lastRel
  rw [List.reverse_cons, List.find?_append]
  cases hfind : js.reverse.find? (fun j => j.doc_id == d) with
  | none =>
    simp only [Option.none_or]
    by_cases hd : j.doc_id = d
    · simp [List.find?, hd]
    · have hb : (j.doc_id == d) = false := by simp [hd]
      simp [List.find?, hb, hd]
  | some w => simp [Option.or_some]

theorem foldl_dictInsert_get (js : List RerankerJudgment) (d : String) :
    ∀ m : List (String × ℚ),
      dictGet? (js.foldl (fun m j => dictInsert m j.doc_id j.relevance_score) m) d =
        (lastRel js d).or (dictGet? m d) := by
  induction js with
  | nil => intro m; rw [List.foldl_nil, lastRel_nil, Option.none_or]
  | cons j rest ih =>
    intro m
    rw [List.foldl_cons, ih, lastRel_cons]
    rw [dictGet?_dictInsert]
    cases lastRel rest d with
    | some v => rfl
    | none =>
      by_cases hd : j.doc_id = d
      · rw [if_pos hd, if_pos hd]; rfl
      · rw [if_neg hd, if_neg hd]; rfl

theorem relevanceMap_get (js : List RerankerJudgment) (d : String) :
    dictGet? (relevanceMap js) d = lastRel js d := by
  rw [relevanceMap, foldl_dictInsert_get]
  cases lastRel js d <;> rfl

theorem relevanceMap_keys_nodup (js : List RerankerJudgment) :
    ((relevanceMap js).map Prod.fst).Nodup := by
  rw [relevanceMap]
  have : ∀ m : List (String × ℚ), (m.map Prod.fst).Nodup →
      ((js.foldl (fun m j => dictInsert m j.doc_id j.relevance_score) m).map
        Prod.fst).Nodup := by
    induction js with
    | nil => intro m hm; exact hm
    | cons j rest ih =>
      intro m hm
      rw [List.foldl_cons]
      exact ih _ (keys_nodup_dictInsert _ _ _ hm)
  exact this [] List.nodup_nil

theorem foldl_dictInsert_fresh (js : List RerankerJudgment) :
    ∀ m : List (String × ℚ),
      (∀ j ∈ js, dictContains m j.doc_id = false) →
      (js.map (fun j => j.doc_id)).Nodup →
      js.foldl (fun m j => dictInsert m j.doc_id j.relevance_score) m =
        m ++ js.map (fun j => (j.doc_id, j.relevance_score)) := by
  induction js with
  | nil => intro m _ _; simp
  | cons j rest ih =>
    intro m hfresh hnd
    rw [List.foldl_cons, List.map_cons]
    have hj : dictContains m j.doc_id = false := hfresh j (List.mem_cons_self j rest)
    have hins : dictInsert m j.doc_id j.relevance_score =
        m ++ [(j.doc_id, j.relevance_score)] := by
      unfold dictInsert
      rw [hj]
      simp
    rw [hins]
    rw [List.map_cons, List.nodup_cons] at hnd
    have hfresh' : ∀ j' ∈ rest,
        dictContains (m ++ [(j.doc_id, j.relevance_score)]) j'.doc_id = false := by
      intro j' hj'
      rw [dictContains_append]
      have h1 : dictContains m j'.doc_id = false := hfresh j' (List.mem_cons_of_mem _ hj')
      have h2 : j.doc_id ≠ j'.doc_id := by
        intro e
        exact hnd.1 (e ▸ List.mem_map_of_mem (fun j => j.doc_id) hj')
      have h3 : dictContains [(j.doc_id, j.relevance_score)] j'.doc_id = false := by
        simp [dictContains, h2]
      rw [h1, h3]
      rfl
    rw [ih _ hfresh' hnd.2, List.append_assoc]
    rfl

theorem relevanceMap_eq_of_nodup (js : List RerankerJudgment)
    (h : (js.map (fun j => j.doc_id)).Nodup) :
    relevanceMap js = js.map (fun j => (j.doc_id, j.relevance_score)) := by
  rw [relevanceMap, foldl_dictInsert_fresh js [] (fun _ _ => rfl) h]
  rfl

theorem mem_keys_iff_isSome (m : List (String × β)) (d : String) :
    d ∈ m.map Prod.fst ↔ (dictGet? m d).isSome := by
  induction m with
  | nil => simp [dictGet?]
  | cons p m ih =>
    by_cases h : p.1 = d
    · simp [dictGet?_cons, h]
    · simp only [List.map_cons, List.mem_cons, dictGet?_cons, if_neg h]
      constructor
      · intro hc
        cases hc with
        | inl e => exact absurd e.symm h
        | inr hm => exact ih.mp hm
      · intro hs; exact Or.inr (ih.mpr hs)

theorem lastRel_isSome_iff (js : List RerankerJudgment) (d : String) :
    (lastRel js d).isSome ↔ d ∈ js.map (fun j => j.doc_id) := by
  rw [lastRel]
  simp only [Option.isSome_map']
  rw [List.find?_isSome]
  constructor
  · rintro ⟨j, hj, hbeq⟩
    exact List.mem_map.mpr ⟨j, List.mem_reverse.mp hj, by simpa using hbeq⟩
  · intro hd
    obtain ⟨j, hj, he⟩ := List.mem_map.mp hd
    exact ⟨j, List.mem_reverse.mpr hj, by simp [he]⟩

theorem countP_values_eq_filter_keys (m : List (String × ℚ)) (p : ℚ → Bool)
    (h : (m.map Prod.fst).Nodup) :
    (m.map Prod.snd).countP p =
      ((m.map Prod.fst).filter (fun d => p ((dictGet? m d).getD 0))).length := by
  induction m with
  | nil => rfl
  | cons q m ih =>
    rw [List.map_cons, List.nodup_cons] at h
    have hq : dictGet? (q :: m) q.1 = some q.2 := by simp [dictGet?]
    have hcong : ∀ d ∈ m.map Prod.fst,
        (fun d => p ((dictGet? (q :: m) d).getD 0)) d =
          (fun d => p ((dictGet? m d).getD 0)) d := by
      intro d hd
      have : ¬(q.1 = d) := fun e => h.1 (e ▸ hd)
      simp [dictGet?, this]
    rw [List.map_cons, List.countP_cons, List.map_cons, List.filter_cons]
    rw [List.filter_congr hcong]
    by_cases hp : p q.2
    · have : p ((dictGet? (q :: m) q.1).getD 0) = true := by rw [hq]; simpa using hp
      rw [this]
      simp only [List.length_cons]
      rw [ih h.2]
      simp [hp]
    · have : p ((dictGet? (q :: m) q.1).getD 0) = false := by
        rw [hq]; simpa using hp
      rw [this]
      simp only [Bool.false_eq_true, if_false]
      rw [ih h.2]
      simp [hp]

theorem mem_of_mem_pyTake {x : α} {n : ℤ} {l : List α} (h : x ∈ pyTake n l) :
    x ∈ l := by
  rw [pyTake] at h
  by_cases h0 : 0 ≤ n
  · rw [if_pos h0] at h; exact List.mem_of_mem_take h
  · rw [if_neg h0] at h; exact List.mem_of_mem_take h

theorem dcgAux_eq_wdcg (l : List ℚ) : ∀ p : ℕ, dcgAux p l = wdcg dw p l := by
  induction l with
  | nil => intro p; rfl
  | cons x xs ih =>
    intro p
    show (x : ℝ) / Real.logb 2 ((p : ℝ) + 1) + dcgAux (p + 1) xs = _
    rw [ih (p + 1), div_eq_mul_inv]
    rfl

theorem wdcg_eq_zero (w : ℕ → ℝ) (l : List ℚ) : ∀ p : ℕ,
    (∀ i, p ≤ i → w i = 0) → wdcg w p l = 0 := by
  induction l with
  | nil => intro p _; rfl
  | cons x xs ih =>
    intro p hw
    show (x : ℝ) * w p + wdcg w (p + 1) xs = 0
    rw [hw p le_rfl, ih (p + 1) (fun i hi => hw i (le_trans (Nat.le_succ p) hi)),
      mul_zero, add_zero]

theorem wdcg_weight_congr (w w' : ℕ → ℝ) (l : List ℚ) : ∀ p : ℕ,
    (∀ i, p ≤ i → w i = w' i) → wdcg w p l = wdcg w' p l := by
  induction l with
  | nil => intro p _; rfl
  | cons x xs ih =>
    intro p h
    show (x : ℝ) * w p + wdcg w (p + 1) xs = (x : ℝ) * w' p + wdcg w' (p + 1) xs
    rw [h p le_rfl, ih (p + 1) (fun i hi => h i (le_trans (Nat.le_succ p) hi))]

theorem wdcg_take (w : ℕ → ℝ) (l : List ℚ) : ∀ (n p : ℕ),
    wdcg w p (l.take n) = wdcg (fun i => if i < p + n then w i else 0) p l := by
  induction l with
  | nil => intro n p; rw [List.take_nil]; rfl
  | cons x xs ih =>
    intro n p
    cases n with
    | zero =>
      have hz : ∀ i, p ≤ i → (fun i => if i < p + 0 then w i else 0) i = 0 := by
        intro i hi
        show (if i < p + 0 then w i else 0) = 0
        rw [if_neg (by omega)]
      exact Eq.trans (by rfl) (wdcg_eq_zero _ (x :: xs) p hz).symm
    | succ m =>
      show (x : ℝ) * w p + wdcg w (p + 1) (xs.take m) =
        (x : ℝ) * (if p < p + (m + 1) then w p else 0) +
          wdcg (fun i => if i < p + (m + 1) then w i else 0) (p + 1) xs
      rw [if_pos (by omega), ih m (p + 1)]
      congr 1
      apply wdcg_weight_congr
      intro i _
      have he : p + 1 + m = p + (m + 1) := by omega
      rw [he]

theorem wdcg_nonneg (w : ℕ → ℝ) (l : List ℚ) : ∀ p : ℕ,
    (∀ i, 0 ≤ w i) → (∀ x ∈ l, 0 ≤ x) → 0 ≤ wdcg w p l := by
  induction l with
  | nil => intro p _ _; exact le_refl 0
  | cons x xs ih =>
    intro p hw hl
    show 0 ≤ (x : ℝ) * w p + wdcg w (p + 1) xs
    have hx : (0 : ℝ) ≤ (x : ℝ) := by
      exact_mod_cast hl x (List.mem_cons_self x xs)
    exact add_nonneg (mul_nonneg hx (hw p))
      (ih (p + 1) hw (fun y hy => hl y (List.mem_cons_of_mem x hy)))

theorem orderedInsert_wdcg_le (w : ℕ → ℝ) (hw : ∀ i, 1 ≤ i → w (i + 1) ≤ w i)
    (x : ℚ) (m : List ℚ) : ∀ p : ℕ, 1 ≤ p →
    wdcg w p (x :: m) ≤ wdcg w p (m.orderedInsert (fun a b => b ≤ a) x) := by
  induction m with
  | nil => intro p _; exact le_of_eq rfl
  | cons b m' ih =>
    intro p hp
    by_cases hxb : b ≤ x
    · have step : List.orderedInsert (fun a b => b ≤ a) x (b :: m') =
          x :: b :: m' := by
        simp [List.orderedInsert, hxb]
      rw [step]
    · have step : List.orderedInsert (fun a b => b ≤ a) x (b :: m') =
          b :: List.orderedInsert (fun a b => b ≤ a) x m' := by
        simp [List.orderedInsert, hxb]
      rw [step]
      have lhs_eq : wdcg w p (x :: b :: m') =
          (x : ℝ) * w p + ((b : ℝ) * w (p + 1) + wdcg w (p + 2) m') := rfl
      have rhs_eq : wdcg w p (b :: List.orderedInsert (fun a b => b ≤ a) x m') =
          (b : ℝ) * w p + wdcg w (p + 1) (List.orderedInsert (fun a b => b ≤ a) x m') :=
        rfl
      rw [lhs_eq, rhs_eq]
      have h1 : (x : ℝ) * w (p + 1) + wdcg w (p + 2) m' ≤
          wdcg w (p + 1) (List.orderedInsert (fun a b => b ≤ a) x m') :=
        ih (p + 1) (by omega)
      have hbx : (x : ℝ) ≤ (b : ℝ) := by
        have := le_of_lt (not_le.mp hxb)
        exact_mod_cast this
      have hwp : w (p + 1) ≤ w p := hw p hp
      have hswap := mul_le_mul_of_nonneg_left hwp (sub_nonneg.mpr hbx)
      rw [sub_mul, sub_mul] at hswap
      linarith

theorem wdcg_le_insertionSort (w : ℕ → ℝ) (hw : ∀ i, 1 ≤ i → w (i + 1) ≤ w i)
    (l : List ℚ) : ∀ p : ℕ, 1 ≤ p →
    wdcg w p l ≤ wdcg w p (l.insertionSort (fun a b => b ≤ a)) := by
  induction l with
  | nil => intro p _; exact le_of_eq rfl
  | cons x xs ih =>
    intro p hp
    have step : (x :: xs).insertionSort (fun a b => b ≤ a) =
        (xs.insertionSort (fun a b => b ≤ a)).orderedInsert (fun a b => b ≤ a) x :=
      rfl
    rw [step]
    calc wdcg w p (x :: xs) = (x : ℝ) * w p + wdcg w (p + 1) xs := rfl
      _ ≤ (x : ℝ) * w p + wdcg w (p + 1) (xs.insertionSort (fun a b => b ≤ a)) := by
          have := ih (p + 1) (by omega)
          linarith
      _ = wdcg w p (x :: xs.insertionSort (fun a b => b ≤ a)) := rfl
      _ ≤ _ := orderedInsert_wdcg_le w hw x _ p hp

theorem dw_nonneg (q : ℕ) : 0 ≤ dw q := by
  rw [dw]
  apply inv_nonneg.mpr
  apply Real.logb_nonneg one_lt_two
  have := Nat.cast_nonneg (α := ℝ) q
  linarith

theorem dw_antitone (i j : ℕ) (hi : 1 ≤ i) (hij : i ≤ j) : dw j ≤ dw i := by
  rw [dw, dw]
  apply inv_anti₀
  · apply Real.logb_pos one_lt_two
    have : (1 : ℝ) ≤ (i : ℝ) := by exact_mod_cast hi
    linarith
  · apply Real.logb_le_logb_of_le one_lt_two
    · have := Nat.cast_nonneg (α := ℝ) i
      linarith
    · have : (i : ℝ) ≤ (j : ℝ) := by exact_mod_cast hij
      linarith

theorem computeDCG_take_le (l : List ℚ) (n : ℕ) :
    computeDCG (l.take n) ≤ computeDCG ((sortedDesc l).take n) := by
  have trunc : ∀ m : List ℚ, computeDCG (m.take n) =
      wdcg (fun i => if i < 1 + n then dw i else 0) 1 m := by
    intro m
    rw [computeDCG, dcgAux_eq_wdcg, wdcg_take]
  rw [trunc l, trunc (sortedDesc l)]
  refine wdcg_le_insertionSort _ ?_ l 1 le_rfl
  intro i hi
  by_cases h1 : i + 1 < 1 + n
  · rw [if_pos h1, if_pos (by omega)]
    exact dw_antitone i (i + 1) hi (Nat.le_succ i)
  · rw [if_neg h1]
    by_cases h2 : i < 1 + n
    · rw [if_pos h2]; exact dw_nonneg i
    · rw [if_neg h2]

theorem computeDCG_nonneg (l : List ℚ) (h : ∀ x ∈ l, 0 ≤ x) : 0 ≤ computeDCG l := by
  rw [computeDCG, dcgAux_eq_wdcg]
  exact wdcg_nonneg dw l 1 dw_nonneg h

theorem procDense_nil (k : ℤ) (r : ℕ) (m : List (String × RrfEntry)) :
    procDense k r [] m = m := rfl

theorem procDense_cons (k : ℤ) (r : ℕ) (h : Hit) (hs : List Hit)
    (m : List (String × RrfEntry)) :
    procDense k r (h :: hs) m =
      procDense k (r + 1) hs
        (if h.payload.text = "" then m
         else dictInsert m h.id ⟨h.payload, 1 / ((k : ℚ) + (r : ℚ)), 0⟩) := rfl

theorem procSparse_nil (k : ℤ) (r : ℕ) (m : List (String × RrfEntry)) :
    procSparse k r [] m = m := rfl

theorem procSparse_cons (k : ℤ) (r : ℕ) (h : Hit) (hs : List Hit)
    (m : List (String × RrfEntry)) :
    procSparse k r (h :: hs) m =
      procSparse k (r + 1) hs
        (if h.payload.text = "" then m
         else rrfUpdateSparse m h.id h.payload (1 / ((k : ℚ) + (r : ℚ)))) := rfl

theorem dmap_cons (k : ℤ) (r : ℕ) (h : Hit) (hs : List Hit) :
    dmap k r (h :: hs) =
      (h.id, (⟨h.payload, 1 / ((k : ℚ) + (r : ℚ)), 0⟩ : RrfEntry)) ::
        dmap k (r + 1) hs := rfl

theorem smap_cons (ks : List String) (k : ℤ) (r : ℕ) (h : Hit) (hs : List Hit) :
    smap ks k r (h :: hs) =
      if h.id ∈ ks then smap ks k (r + 1) hs
      else (h.id, (⟨h.payload, 0, 1 / ((k : ℚ) + (r : ℚ))⟩ : RrfEntry)) ::
        smap ks k (r + 1) hs := rfl

theorem dictContains_iff_mem_keys (m : List (String × β)) (d : String) :
    dictContains m d = true ↔ d ∈ m.map Prod.fst := by
  rw [dictContains_eq_isSome]
  exact ⟨fun h => (mem_keys_iff_isSome m d).mpr h,
    fun h => (mem_keys_iff_isSome m d).mp h⟩

theorem keys_map_fst_preserved (g : String × β → String × β)
    (hg : ∀ p, (g p).1 = p.1) (m : List (String × β)) :
    (m.map g).map Prod.fst = m.map Prod.fst := by
  induction m with
  | nil => rfl
  | cons p m ih => simp [hg, ih]

theorem dictGet?_map_entry (f : String → β → β) (m : List (String × β)) (d : String) :
    dictGet? (m.map (fun p => (p.1, f p.1 p.2))) d = (dictGet? m d).map (f d) := by
  induction m with
  | nil => rfl
  | cons p m ih =>
    by_cases h : p.1 = d
    · simp [dictGet?_cons, h]
    · simp [dictGet?_cons, h, ih]

theorem rrfUpdateSparse_contains (m : List (String × RrfEntry)) (kid : String)
    (pl : Payload) (s : ℚ) (hc : dictContains m kid) :
    rrfUpdateSparse m kid pl s =
      m.map (fun p => (p.1,
        if p.1 = kid then (⟨p.2.payload, p.2.rrf_dense, s⟩ : RrfEntry) else p.2)) := by
  rw [rrfUpdateSparse, if_pos hc]
  apply List.map_congr_left
  intro p _
  by_cases h : p.1 = kid <;> simp [h]

theorem procDense_fresh (k : ℤ) : ∀ (hs : List Hit) (r : ℕ)
    (m : List (String × RrfEntry)),
    (∀ h ∈ hs, dictContains m h.id = false) →
    (hs.map Hit.id).Nodup →
    (∀ h ∈ hs, h.payload.text ≠ "") →
    procDense k r hs m = m ++ dmap k r hs := by
  intro hs
  induction hs with
  | nil =>
    intro r m _ _ _
    rw [procDense_nil]
    exact (List.append_nil m).symm
  | cons h hs' ih =>
    intro r m hfresh hnd htext
    have hne : h.payload.text ≠ "" := htext h (List.mem_cons_self h hs')
    rw [procDense_cons, if_neg hne]
    have hc : dictContains m h.id = false := hfresh h (List.mem_cons_self h hs')
    have hins : dictInsert m h.id ⟨h.payload, 1 / ((k : ℚ) + (r : ℚ)), 0⟩ =
        m ++ [(h.id, ⟨h.payload, 1 / ((k : ℚ) + (r : ℚ)), 0⟩)] := by
      rw [dictInsert, hc]
      simp
    rw [hins]
    rw [List.map_cons, List.nodup_cons] at hnd
    have hfresh' : ∀ h' ∈ hs',
        dictContains (m ++ [(h.id, (⟨h.payload, 1 / ((k : ℚ) + (r : ℚ)), 0⟩ : RrfEntry))])
          h'.id = false := by
      intro h' hh'
      rw [dictContains_append]
      have h1 : dictContains m h'.id = false := hfresh h' (List.mem_cons_of_mem _ hh')
      have h2 : h.id ≠ h'.id := by
        intro e
        exact hnd.1 (e ▸ List.mem_map_of_mem Hit.id hh')
      have h3 : dictContains
          [(h.id, (⟨h.payload, 1 / ((k : ℚ) + (r : ℚ)), 0⟩ : RrfEntry))] h'.id = false := by
        simp [dictContains, h2]
      rw [h1, h3]
      rfl
    rw [ih (r + 1) _ hfresh' hnd.2 (fun h' hh' => htext h' (List.mem_cons_of_mem _ hh'))]
    rw [dmap_cons, List.append_assoc]
    rfl

theorem smap_append_not_mem (ks : List String) (x : String) (k : ℤ) :
    ∀ (hs : List Hit) (r : ℕ), (∀ h ∈ hs, h.id ≠ x) →
    smap (ks ++ [x]) k r hs = smap ks k r hs := by
  intro hs
  induction hs with
  | nil => intro r _; rfl
  | cons h hs' ih =>
    intro r hne
    have hx : h.id ≠ x := hne h (List.mem_cons_self h hs')
    have hmem : h.id ∈ ks ++ [x] ↔ h.id ∈ ks := by
      simp [List.mem_append, hx]
    rw [smap_cons, smap_cons]
    by_cases hk : h.id ∈ ks
    · rw [if_pos (hmem.mpr hk), if_pos hk]
      exact ih (r + 1) (fun h' hh' => hne h' (List.mem_cons_of_mem _ hh'))
    · rw [if_neg (fun hcon => hk (hmem.mp hcon)), if_neg hk]
      rw [ih (r + 1) (fun h' hh' => hne h' (List.mem_cons_of_mem _ hh'))]

theorem sparseUpd_shift (k : ℤ) (r : ℕ) (h : Hit) (hs' : List Hit) (d : String)
    (e : RrfEntry) (hne : h.id ≠ d) :
    sparseUpd k (r + 1) hs' d e = sparseUpd k r (h :: hs') d e := by
  rw [sparseUpd, sparseUpd, List.findIdx?_cons]
  have hhead : (h.id == d) = false := by simp [hne]
  rw [hhead]
  simp only [Bool.false_eq_true, if_false, List.findIdx?_succ]
  cases hfind : hs'.findIdx? (fun x => x.id == d) with
  | none => rfl
  | some i =>
    simp only [Option.map_some']
    congr 1
    push_cast
    ring

theorem sparseUpd_head (k : ℤ) (r : ℕ) (h : Hit) (hs' : List Hit) (e : RrfEntry) :
    sparseUpd k r (h :: hs') h.id e =
      ⟨e.payload, e.rrf_dense, 1 / ((k : ℚ) + (r : ℚ))⟩ := by
  rw [sparseUpd, List.findIdx?_cons]
  have hhead : (h.id == h.id) = true := by simp
  rw [hhead]
  simp only [if_true]
  congr 1
  push_cast
  ring

theorem sparseUpd_not_mem (k : ℤ) (r : ℕ) (hs : List Hit) (d : String)
    (e : RrfEntry) (hno : ∀ x ∈ hs, x.id ≠ d) : sparseUpd k r hs d e = e := by
  rw [sparseUpd]
  have hnone : hs.findIdx? (fun x => x.id == d) = none :=
    List.findIdx?_eq_none_iff.mpr (fun x hx => by simp [hno x hx])
  rw [hnone]

theorem procSparse_spec (k : ℤ) : ∀ (hs : List Hit) (r : ℕ)
    (m : List (String × RrfEntry)),
    (hs.map Hit.id).Nodup →
    (∀ h ∈ hs, h.payload.text ≠ "") →
    procSparse k r hs m =
      m.map (fun p => (p.1, sparseUpd k r hs p.1 p.2)) ++
        smap (m.map Prod.fst) k r hs := by
  intro hs
  induction hs with
  | nil =>
    intro r m _ _
    rw [procSparse_nil]
    have h1 : m.map (fun p => (p.1, sparseUpd k r [] p.1 p.2)) = m := by
      have hcongr : ∀ p ∈ m, (p.1, sparseUpd k r [] p.1 p.2) = id p := by
        intro p _
        exact Prod.mk.eta
      rw [List.map_congr_left hcongr, List.map_id]
    rw [h1]
    exact (List.append_nil m).symm
  | cons h hs' ih =>
    intro r m hnd htext
    have hne : h.payload.text ≠ "" := htext h (List.mem_cons_self h hs')
    rw [procSparse_cons, if_neg hne]
    rw [List.map_cons, List.nodup_cons] at hnd
    have hnotin : ∀ x ∈ hs', x.id ≠ h.id := by
      intro x hx e
      exact hnd.1 (e ▸ List.mem_map_of_mem Hit.id hx)
    have htext' : ∀ x ∈ hs', x.payload.text ≠ "" :=
      fun x hx => htext x (List.mem_cons_of_mem _ hx)
    by_cases hc : dictContains m h.id
    · rw [rrfUpdateSparse_contains m h.id h.payload _ hc]
      rw [ih (r + 1) _ hnd.2 htext']
      congr 1
      · rw [List.map_map]
        apply List.map_congr_left
        intro p _
        show (p.1, sparseUpd k (r + 1) hs' p.1
            (if p.1 = h.id then (⟨p.2.payload, p.2.rrf_dense,
              1 / ((k : ℚ) + (r : ℚ))⟩ : RrfEntry) else p.2)) =
          (p.1, sparseUpd k r (h :: hs') p.1 p.2)
        by_cases hid : p.1 = h.id
        · rw [if_pos hid]
          have hno : ∀ x ∈ hs', x.id ≠ p.1 := by
            intro x hx
            rw [hid]
            exact hnotin x hx
          rw [sparseUpd_not_mem k (r + 1) hs' p.1 _ hno]
          rw [hid, sparseUpd_head k r h hs' p.2]
        · rw [if_neg hid]
          rw [sparseUpd_shift k r h hs' p.1 p.2 (fun e => hid e.symm)]
      · rw [keys_map_fst_preserved
            (fun p => (p.1, if p.1 = h.id then (⟨p.2.payload, p.2.rrf_dense,
              1 / ((k : ℚ) + (r : ℚ))⟩ : RrfEntry) else p.2))
            (fun p => rfl) m,
          smap_cons, if_pos ((dictContains_iff_mem_keys m h.id).mp hc)]
    · rw [rrfUpdateSparse, if_neg hc]
      rw [ih (r + 1) _ hnd.2 htext']
      have hcf : dictContains m h.id = false := by
        simpa using hc
      have hnk : h.id ∉ m.map Prod.fst := not_mem_keys_of_not_contains m h.id hcf
      rw [List.map_append, List.map_append]
      simp only [List.map_singleton]
      rw [smap_append_not_mem (m.map Prod.fst) h.id k hs' (r + 1) hnotin]
      rw [smap_cons, if_neg hnk]
      rw [sparseUpd_not_mem k (r + 1) hs' h.id _ hnotin]
      have hmaps : m.map (fun p => (p.1, sparseUpd k (r + 1) hs' p.1 p.2)) =
          m.map (fun p => (p.1, sparseUpd k r (h :: hs') p.1 p.2)) := by
        apply List.map_congr_left
        intro p hp
        have hpne : h.id ≠ p.1 := by
          intro e
          exact hnk (e ▸ List.mem_map_of_mem Prod.fst hp)
        rw [sparseUpd_shift k r h hs' p.1 p.2 hpne]
      rw [hmaps, List.append_assoc]
      rfl

theorem keys_dmap (k : ℤ) : ∀ (hs : List Hit) (r : ℕ),
    (dmap k r hs).map Prod.fst = hs.map Hit.id := by
  intro hs
  induction hs with
  | nil => intro r; rfl
  | cons h hs' ih => intro r; rw [dmap_cons, List.map_cons, List.map_cons, ih]

theorem keys_smap (ks : List String) (k : ℤ) : ∀ (hs : List Hit) (r : ℕ),
    (smap ks k r hs).map Prod.fst =
      (hs.filter (fun h => decide (h.id ∉ ks))).map Hit.id := by
  intro hs
  induction hs with
  | nil => intro r; rfl
  | cons h hs' ih =>
    intro r
    rw [smap_cons, List.filter_cons]
    by_cases hk : h.id ∈ ks
    · rw [if_pos hk, ih]
      have : (decide (h.id ∉ ks)) = false := by simp [hk]
      rw [this]
      rfl
    · rw [if_neg hk, List.map_cons, ih]
      have : (decide (h.id ∉ ks)) = true := by simp [hk]
      rw [this]
      rfl

theorem filter_map_ids (ks : List String) (hs : List Hit) :
    (hs.filter (fun h => decide (h.id ∉ ks))).map Hit.id =
      (hs.map Hit.id).filter (fun d => decide (d ∉ ks)) := by
  induction hs with
  | nil => rfl
  | cons h hs' ih =>
    rw [List.filter_cons, List.map_cons, List.filter_cons]
    by_cases hk : h.id ∈ ks
    · have h1 : (decide (h.id ∉ ks)) = false := by simp [hk]
      rw [h1]
      simp only [Bool.false_eq_true, if_false]
      exact ih
    · have h1 : (decide (h.id ∉ ks)) = true := by simp [hk]
      rw [h1]
      simp only [if_true]
      rw [List.map_cons, ih]

theorem dmap_get_none (k : ℤ) : ∀ (hs : List Hit) (r : ℕ) (d : String),
    (∀ x ∈ hs, x.id ≠ d) → dictGet? (dmap k r hs) d = none := by
  intro hs
  induction hs with
  | nil => intro r d _; rfl
  | cons h hs' ih =>
    intro r d hne
    rw [dmap_cons, dictGet?_cons,
      if_neg (hne h (List.mem_cons_self h hs'))]
    exact ih (r + 1) d (fun x hx => hne x (List.mem_cons_of_mem _ hx))

theorem dmap_get_some (k : ℤ) : ∀ (hs : List Hit) (r : ℕ) (d : String) (i : ℕ)
    (h0 : Hit),
    hs.findIdx? (fun h => h.id == d) = some i →
    hs.find? (fun h => h.id == d) = some h0 →
    dictGet? (dmap k r hs) d =
      some ⟨h0.payload, 1 / ((k : ℚ) + (r : ℚ) + (i : ℚ)), 0⟩ := by
  intro hs
  induction hs with
  | nil => intro r d i h0 hidx _; exact absurd hidx (by simp)
  | cons h hs' ih =>
    intro r d i h0 hidx hfind
    by_cases hd : h.id = d
    · have hb : (h.id == d) = true := by simp [hd]
      rw [List.findIdx?_cons, hb, if_pos rfl] at hidx
      rw [List.find?_cons, hb] at hfind
      have hi : i = 0 := by
        cases hidx
        rfl
      have hh0 : h0 = h := by
        cases hfind
        rfl
      rw [dmap_cons, dictGet?_cons, if_pos hd, hi, hh0]
      have : 1 / ((k : ℚ) + (r : ℚ)) = 1 / ((k : ℚ) + (r : ℚ) + ((0 : ℕ) : ℚ)) := by
        push_cast
        ring
      rw [this]
    · have hb : (h.id == d) = false := by simp [hd]
      rw [List.findIdx?_cons, hb] at hidx
      simp only [Bool.false_eq_true, if_false, List.findIdx?_succ] at hidx
      rw [List.find?_cons, hb] at hfind
      rw [dmap_cons, dictGet?_cons, if_neg hd]
      cases hidx' : hs'.findIdx? (fun h => h.id == d) with
      | none => rw [hidx'] at hidx; exact absurd hidx (by simp)
      | some i' =>
        rw [hidx'] at hidx
        simp only [Option.map_some', Option.some.injEq] at hidx
        rw [ih (r + 1) d i' h0 hidx' hfind]
        subst hidx
        have : 1 / ((k : ℚ) + ((r : ℚ) + 1) + (i' : ℚ)) =
            1 / ((k : ℚ) + (r : ℚ) + (((i' + 1 : ℕ)) : ℚ)) := by
          push_cast
          ring
        rw [← this]
        push_cast
        ring_nf

theorem smap_get_some (ks : List String) (k : ℤ) : ∀ (hs : List Hit) (r : ℕ)
    (d : String) (i : ℕ) (h0 : Hit), d ∉ ks →
    hs.findIdx? (fun h => h.id == d) = some i →
    hs.find? (fun h => h.id == d) = some h0 →
    dictGet? (smap ks k r hs) d =
      some ⟨h0.payload, 0, 1 / ((k : ℚ) + (r : ℚ) + (i : ℚ))⟩ := by
  intro hs
  induction hs with
  | nil => intro r d i h0 _ hidx _; exact absurd hidx (by simp)
  | cons h hs' ih =>
    intro r d i h0 hdks hidx hfind
    by_cases hd : h.id = d
    · have hb : (h.id == d) = true := by simp [hd]
      rw [List.findIdx?_cons, hb, if_pos rfl] at hidx
      rw [List.find?_cons, hb] at hfind
      have hi : i = 0 := by cases hidx; rfl
      have hh0 : h0 = h := by cases hfind; rfl
      have hkmem : h.id ∉ ks := by rw [hd]; exact hdks
      rw [smap_cons, if_neg hkmem, dictGet?_cons, if_pos hd, hi, hh0]
      have : 1 / ((k : ℚ) + (r : ℚ)) = 1 / ((k : ℚ) + (r : ℚ) + ((0 : ℕ) : ℚ)) := by
        push_cast
        ring
      rw [this]
    · have hb : (h.id == d) = false := by simp [hd]
      rw [List.findIdx?_cons, hb] at hidx
      simp only [Bool.false_eq_true, if_false, List.findIdx?_succ] at hidx
      rw [List.find?_cons, hb] at hfind
      cases hidx' : hs'.findIdx? (fun h => h.id == d) with
      | none => rw [hidx'] at hidx; exact absurd hidx (by simp)
      | some i' =>
        rw [hidx'] at hidx
        simp only [Option.map_some', Option.some.injEq] at hidx
        have hrec := ih (r + 1) d i' h0 hdks hidx' hfind
        have hval : (⟨h0.payload, 0, 1 / ((k : ℚ) + ((r + 1 : ℕ) : ℚ) + (i' : ℚ))⟩ :
            RrfEntry) = ⟨h0.payload, 0, 1 / ((k : ℚ) + (r : ℚ) + (i : ℚ))⟩ := by
          subst hidx
          congr 1
          push_cast
          ring
      -- close per branch of smap
        rw [smap_cons]
        by_cases hk : h.id ∈ ks
        · rw [if_pos hk, hrec, hval]
        · rw [if_neg hk, dictGet?_cons, if_neg hd, hrec, hval]

theorem exists_findIdx?_of_mem_ids {hs : List Hit} {d : String}
    (hd : d ∈ hs.map Hit.id) :
    ∃ i, hs.findIdx? (fun h => h.id == d) = some i := by
  cases hf : hs.findIdx? (fun h => h.id == d) with
  | some i => exact ⟨i, rfl⟩
  | none =>
    exfalso
    rw [List.findIdx?_eq_none_iff] at hf
    obtain ⟨h0, hh0, he⟩ := List.mem_map.mp hd
    have := hf h0 hh0
    simp [he] at this

theorem exists_find?_of_mem_ids {hs : List Hit} {d : String}
    (hd : d ∈ hs.map Hit.id) :
    ∃ h0, hs.find? (fun h => h.id == d) = some h0 := by
  obtain ⟨h0, hh0, he⟩ := List.mem_map.mp hd
  have : (hs.find? (fun h => h.id == d)).isSome :=
    List.find?_isSome.mpr ⟨h0, hh0, by simp [he]⟩
  cases hf : hs.find? (fun h => h.id == d) with
  | some h1 => exact ⟨h1, rfl⟩
  | none => rw [hf] at this; exact absurd this (by simp)

theorem findIdx?_eq_none_of_not_mem {hs : List Hit} {d : String}
    (hd : d ∉ hs.map Hit.id) :
    hs.findIdx? (fun h => h.id == d) = none := by
  rw [List.findIdx?_eq_none_iff]
  intro x hx
  simp only [beq_eq_false_iff_ne, ne_eq]
  intro he
  exact hd (he ▸ List.mem_map_of_mem Hit.id hx)

theorem find?_eq_none_of_not_mem {hs : List Hit} {d : String}
    (hd : d ∉ hs.map Hit.id) :
    hs.find? (fun h => h.id == d) = none := by
  rw [List.find?_eq_none]
  intro x hx
  simp only [beq_eq_false_iff_ne, ne_eq, Bool.not_eq_true, beq_eq_false_iff_ne]
  intro he
  exact hd (he ▸ List.mem_map_of_mem Hit.id hx)

theorem sparseUpd_one (k : ℤ) (hs : List Hit) (d : String) (e : RrfEntry)
    (he : e.rrf_sparse = 0) :
    sparseUpd k 1 hs d e = ⟨e.payload, e.rrf_dense, rrfTerm k hs d⟩ := by
  rw [sparseUpd, rrfTerm]
  cases hf : hs.findIdx? (fun h => h.id == d) with
  | none =>
    cases e
    simp only at he
    simp [he]
  | some i =>
    simp only [RrfEntry.mk.injEq]
    refine ⟨trivial, trivial, ?_⟩
    push_cast
    ring

theorem dict_eq_of_keys_lookup (m : List (String × β)) (ids : List String)
    (f : String → β) (hkeys : m.map Prod.fst = ids) (hnd : ids.Nodup)
    (hget : ∀ d ∈ ids, dictGet? m d = some (f d)) :
    m = ids.map (fun d => (d, f d)) := by
  induction m generalizing ids with
  | nil => rw [← hkeys]; rfl
  | cons p m' ih =>
    rw [List.map_cons] at hkeys
    subst hkeys
    rw [List.map_cons]
    rw [List.nodup_cons] at hnd
    have hhead := hget p.1 (List.mem_cons_self _ _)
    rw [dictGet?_cons, if_pos rfl] at hhead
    have hp2 : p.2 = f p.1 := Option.some.inj hhead
    congr 1
    · cases p
      simp only at hp2
      rw [hp2]
    · apply ih (m'.map Prod.fst) rfl hnd.2
      intro d hd
      have hdp : ¬(p.1 = d) := fun e => hnd.1 (e ▸ hd)
      have := hget d (List.mem_cons_of_mem _ hd)
      rw [dictGet?_cons, if_neg hdp] at this
      exact this

theorem candIds_nodup (dense sparse : List Hit)
    (hnd : (dense.map Hit.id).Nodup) (hns : (sparse.map Hit.id).Nodup) :
    (candIds dense sparse).Nodup := by
  rw [candIds]
  apply List.Nodup.append hnd (hns.filter _)
  intro a ha hfa
  rw [List.mem_filter] at hfa
  have h2 := hfa.2
  simp only [decide_eq_true_eq] at h2
  exact h2 ha

theorem rrfScores_eq (dense sparse : List Hit) (k : ℤ)
    (hnd : (dense.map Hit.id).Nodup) (hns : (sparse.map Hit.id).Nodup)
    (htd : ∀ h ∈ dense, h.payload.text ≠ "")
    (hts : ∀ h ∈ sparse, h.payload.text ≠ "") :
    rrfScores dense sparse k =
      (candIds dense sparse).map (fun d =>
        (d, (⟨payloadOf dense sparse d, rrfTerm k dense d,
          rrfTerm k sparse d⟩ : RrfEntry))) := by
  have hdense : procDense k 1 dense [] = dmap k 1 dense :=
    procDense_fresh k dense 1 [] (fun h _ => rfl) hnd htd
  have hstage : rrfScores dense sparse k =
      (dmap k 1 dense).map (fun p => (p.1, sparseUpd k 1 sparse p.1 p.2)) ++
        smap ((dmap k 1 dense).map Prod.fst) k 1 sparse := by
    rw [rrfScores, hdense]
    exact procSparse_spec k sparse 1 _ hns hts
  refine dict_eq_of_keys_lookup _ _ _ ?_ (candIds_nodup dense sparse hnd hns) ?_
  · rw [hstage, List.map_append,
      keys_map_fst_preserved (fun p => (p.1, sparseUpd k 1 sparse p.1 p.2))
        (fun p => rfl),
      keys_dmap, keys_smap, filter_map_ids]
    rfl
  · intro d hd
    rw [hstage, dictGet?_append, dictGet?_map_entry (sparseUpd k 1 sparse),
      keys_dmap]
    by_cases hdd : d ∈ dense.map Hit.id
    · obtain ⟨i, hi⟩ := exists_findIdx?_of_mem_ids hdd
      obtain ⟨h0, hh0⟩ := exists_find?_of_mem_ids hdd
      rw [dmap_get_some k dense 1 d i h0 hi hh0]
      rw [Option.map_some', Option.or_some]
      rw [sparseUpd_one k sparse d _ rfl]
      have hpay : payloadOf dense sparse d = h0.payload := by
        simp only [payloadOf, hh0]
      have hterm : rrfTerm k dense d =
          1 / ((k : ℚ) + ((1 : ℕ) : ℚ) + (i : ℚ)) := by
        simp only [rrfTerm, hi]
        push_cast
        ring
      rw [hpay, hterm]
    · have hds : d ∈ (sparse.map Hit.id).filter
          (fun x => decide (x ∉ dense.map Hit.id)) := by
        rw [candIds] at hd
        cases List.mem_append.mp hd with
        | inl h => exact absurd h hdd
        | inr h => exact h
      have hdsp : d ∈ sparse.map Hit.id := (List.mem_filter.mp hds).1
      obtain ⟨j, hj⟩ := exists_findIdx?_of_mem_ids hdsp
      obtain ⟨h0, hh0⟩ := exists_find?_of_mem_ids hdsp
      rw [dmap_get_none k dense 1 d
        (fun x hx he => hdd (he ▸ List.mem_map_of_mem Hit.id hx))]
      rw [Option.map_none', Option.none_or]
      rw [smap_get_some (dense.map Hit.id) k sparse 1 d j h0 hdd hj hh0]
      have hpay : payloadOf dense sparse d = h0.payload := by
        simp only [payloadOf, find?_eq_none_of_not_mem hdd, hh0]
      have hdt : rrfTerm k dense d = 0 := by
        simp only [rrfTerm, findIdx?_eq_none_of_not_mem hdd]
      have hterm : rrfTerm k sparse d =
          1 / ((k : ℚ) + ((1 : ℕ) : ℚ) + (j : ℚ)) := by
        simp only [rrfTerm, hj]
        push_cast
        ring
      rw [hpay, hdt, hterm]

theorem fusedCandidates_eq (dense sparse : List Hit) (alpha : ℚ) (k : ℤ)
    (hnd : (dense.map Hit.id).Nodup) (hns : (sparse.map Hit.id).Nodup)
    (htd : ∀ h ∈ dense, h.payload.text ≠ "")
    (hts : ∀ h ∈ sparse, h.payload.text ≠ "") :
    fusedCandidates dense sparse alpha k =
      (candIds dense sparse).map (mkCand dense sparse alpha k) := by
  rw [fusedCandidates, rrfScores_eq dense sparse k hnd hns htd hts, List.map_map]
  apply List.map_congr_left
  intro d _
  rfl

theorem pair_sublist_asymm {a b : α} {l : List α} (hl : l.Nodup)
    (h1 : List.Sublist [a, b] l) (h2 : List.Sublist [b, a] l) : False := by
  induction l with
  | nil => simp at h1
  | cons c l ih =>
    rw [List.nodup_cons] at hl
    cases h1 with
    | cons _ h1' =>
      cases h2 with
      | cons _ h2' => exact ih hl.2 h1' h2'
      | cons₂ _ h2' =>
        exact hl.1 (h1'.subset (by simp))
    | cons₂ _ h1' =>
      cases h2 with
      | cons _ h2' =>
        exact hl.1 (h2'.subset (by simp))
      | cons₂ _ h2' =>
        exact hl.1 (h2'.subset (by simp))

theorem pair_sublist_total {a b : α} {l : List α} (ha : a ∈ l) (hb : b ∈ l)
    (hab : a ≠ b) : List.Sublist [a, b] l ∨ List.Sublist [b, a] l := by
  induction l with
  | nil => simp at ha
  | cons c l ih =>
    by_cases hca : c = a
    · subst hca
      have hbl : b ∈ l := by
        cases List.mem_cons.mp hb with
        | inl h => exact absurd h.symm hab
        | inr h => exact h
      exact Or.inl (List.Sublist.cons₂ c (List.singleton_sublist.mpr hbl))
    · by_cases hcb : c = b
      · subst hcb
        have hal : a ∈ l := by
          cases List.mem_cons.mp ha with
          | inl h => exact absurd h hab
          | inr h => exact h
        exact Or.inr (List.Sublist.cons₂ c (List.singleton_sublist.mpr hal))
      · have hal : a ∈ l := by
          cases List.mem_cons.mp ha with
          | inl h => exact absurd h.symm hca
          | inr h => exact h
        have hbl : b ∈ l := by
          cases List.mem_cons.mp hb with
          | inl h => exact absurd h.symm hcb
          | inr h => exact h
        cases ih hal hbl with
        | inl h => exact Or.inl (List.Sublist.cons c h)
        | inr h => exact Or.inr (List.Sublist.cons c h)

theorem sorted_stable_unique (f : α → ℚ) : ∀ (m t : List α), m.Perm t →
    m.Pairwise (fun a b => f b ≤ f a) → t.Pairwise (fun a b => f b ≤ f a) →
    m.Nodup →
    (∀ a b, f a = f b → List.Sublist [a, b] t → List.Sublist [a, b] m) →
    m = t := by
  intro m
  induction m with
  | nil =>
    intro t hp _ _ _ _
    exact (List.Perm.eq_nil hp.symm).symm
  | cons a m' ih =>
    intro t hp hm ht hnd hstab
    cases t with
    | nil => exact absurd (List.Perm.eq_nil hp) (by simp)
    | cons b t' =>
      by_cases hab : a = b
      · subst hab
        have hndt : (a :: t').Nodup := (hp.nodup_iff).mp hnd
        have hrec : m' = t' := by
          apply ih t' hp.cons_inv hm.of_cons ht.of_cons (List.nodup_cons.mp hnd).2
          intro x y hf hsub
          have hm2 := hstab x y hf (List.Sublist.cons a hsub)
          cases hm2 with
          | cons _ h => exact h
          | cons₂ _ h =>
            exfalso
            exact (List.nodup_cons.mp hndt).1 (hsub.subset (by simp))
        rw [hrec]
      · exfalso
        have hbm : b ∈ a :: m' := (hp.mem_iff).mpr (List.mem_cons_self b t')
        have hbm' : b ∈ m' := by
          cases List.mem_cons.mp hbm with
          | inl h => exact absurd h.symm hab
          | inr h => exact h
        have hat' : a ∈ t' := by
          have hmem : a ∈ b :: t' := (hp.mem_iff).mp (List.mem_cons_self a m')
          cases List.mem_cons.mp hmem with
          | inl h => exact absurd h hab
          | inr h => exact h
        have hfba : f b ≤ f a := (List.pairwise_cons.mp hm).1 b hbm'
        have hfab : f a ≤ f b := (List.pairwise_cons.mp ht).1 a hat'
        have hfeq : f b = f a := le_antisymm hfba hfab
        have hsubt : List.Sublist [b, a] (b :: t') :=
          List.Sublist.cons₂ b (List.singleton_sublist.mpr hat')
        have hsubm : List.Sublist [b, a] (a :: m') := hstab b a hfeq hsubt
        have hsubm2 : List.Sublist [a, b] (a :: m') :=
          List.Sublist.cons₂ a (List.singleton_sublist.mpr hbm')
        exact pair_sublist_asymm hnd hsubm2 hsubm

theorem fkeyLE_trans (f : α → ℚ) : ∀ (a b c : α),
    (fun a b => decide (f b ≤ f a)) a b → (fun a b => decide (f b ≤ f a)) b c →
    (fun a b => decide (f b ≤ f a)) a c := by
  intro a b c h1 h2
  simp only [decide_eq_true_eq] at *
  exact le_trans h2 h1

theorem fkeyLE_total (f : α → ℚ) : ∀ (a b : α),
    ((fun a b => decide (f b ≤ f a)) a b || (fun a b => decide (f b ≤ f a)) b a) := by
  intro a b
  simp only [Bool.or_eq_true, decide_eq_true_eq]
  exact le_total (f b) (f a)

theorem mergeSort_sorted_pairwise (f : α → ℚ) (l : List α) :
    (l.mergeSort (fun a b => decide (f b ≤ f a))).Pairwise
      (fun a b => f b ≤ f a) := by
  have h := List.sorted_mergeSort (fkeyLE_trans f) (fkeyLE_total f) l
  exact h.imp (fun hab => of_decide_eq_true hab)

theorem mergeSort_eq_of_stable (f : α → ℚ) (l t : List α) (hnd : l.Nodup)
    (hp : t.Perm l) (hs : t.Pairwise (fun a b => f b ≤ f a))
    (hstab : ∀ a b, f a = f b → List.Sublist [a, b] t → List.Sublist [a, b] l) :
    l.mergeSort (fun a b => decide (f b ≤ f a)) = t := by
  apply sorted_stable_unique f
  · exact (List.mergeSort_perm l _).trans hp.symm
  · exact mergeSort_sorted_pairwise f l
  · exact hs
  · exact (List.mergeSort_perm l _).nodup_iff.mpr hnd
  · intro a b hf hsub
    exact List.pair_sublist_mergeSort (fkeyLE_trans f) (fkeyLE_total f)
      (by simp [hf]) (hstab a b hf hsub)

theorem mergeSort_stable_first_encounter (f : α → ℚ) (l : List α)
    (hnd : l.Nodup) :
    (l.mergeSort (fun a b => decide (f b ≤ f a))).Pairwise
      (fun a b => f a = f b → List.Sublist [a, b] l) := by
  rw [List.pairwise_iff_forall_sublist]
  intro a b hsub hf
  have hndm : (l.mergeSort (fun a b => decide (f b ≤ f a))).Nodup :=
    (List.mergeSort_perm l _).nodup_iff.mpr hnd
  have hab : a ≠ b := by
    intro e
    subst e
    have hdup : ([a, a] : List α).Nodup := hsub.nodup hndm
    simp at hdup
  have hal : a ∈ l := List.mem_mergeSort.mp (hsub.subset (by simp))
  have hbl : b ∈ l := List.mem_mergeSort.mp (hsub.subset (by simp))
  cases pair_sublist_total hal hbl hab with
  | inl h => exact h
  | inr h =>
    exfalso
    have hms : List.Sublist [b, a] (l.mergeSort (fun a b => decide (f b ≤ f a))) :=
      List.pair_sublist_mergeSort (fkeyLE_trans f) (fkeyLE_total f)
        (by simp [hf]) h
    exact pair_sublist_asymm hndm hsub hms

theorem keys_nodup_rrfUpdateSparse (m : List (String × RrfEntry)) (kid : String)
    (pl : Payload) (s : ℚ) (h : (m.map Prod.fst).Nodup) :
    ((rrfUpdateSparse m kid pl s).map Prod.fst).Nodup := by
  rw [rrfUpdateSparse]
  by_cases hc : dictContains m kid
  · rw [if_pos hc]
    rw [keys_map_fst_preserved
      (fun p => if p.1 = kid then (p.1, (⟨p.2.payload, p.2.rrf_dense, s⟩ : RrfEntry))
        else p)
      (fun p => by by_cases hh : p.1 = kid <;> simp [hh]) m]
    exact h
  · rw [if_neg hc]
    rw [List.map_append]
    have hk : kid ∉ m.map Prod.fst :=
      not_mem_keys_of_not_contains m kid (by simpa using hc)
    simp [List.nodup_append, h, hk]

theorem procDense_keys_nodup (k : ℤ) : ∀ (hs : List Hit) (r : ℕ)
    (m : List (String × RrfEntry)), (m.map Prod.fst).Nodup →
    ((procDense k r hs m).map Prod.fst).Nodup := by
  intro hs
  induction hs with
  | nil => intro r m hm; exact hm
  | cons h hs' ih =>
    intro r m hm
    rw [procDense_cons]
    by_cases ht : h.payload.text = ""
    · rw [if_pos ht]; exact ih (r + 1) m hm
    · rw [if_neg ht]; exact ih (r + 1) _ (keys_nodup_dictInsert _ _ _ hm)

theorem procSparse_keys_nodup (k : ℤ) : ∀ (hs : List Hit) (r : ℕ)
    (m : List (String × RrfEntry)), (m.map Prod.fst).Nodup →
    ((procSparse k r hs m).map Prod.fst).Nodup := by
  intro hs
  induction hs with
  | nil => intro r m hm; exact hm
  | cons h hs' ih =>
    intro r m hm
    rw [procSparse_cons]
    by_cases ht : h.payload.text = ""
    · rw [if_pos ht]; exact ih (r + 1) m hm
    · rw [if_neg ht]; exact ih (r + 1) _ (keys_nodup_rrfUpdateSparse _ _ _ _ hm)

theorem fusedCandidates_nodup (dense sparse : List Hit) (alpha : ℚ) (k : ℤ) :
    (fusedCandidates dense sparse alpha k).Nodup := by
  rw [fusedCandidates]
  have hkeys : ((rrfScores dense sparse k).map Prod.fst).Nodup := by
    rw [rrfScores]
    exact procSparse_keys_nodup k sparse 1 _
      (procDense_keys_nodup k dense 1 [] (by simp))
  have himg : ((rrfScores dense sparse k).map (fun p =>
      (⟨p.1, p.2.payload,
        alpha * p.2.rrf_dense + (1 - alpha) * p.2.rrf_sparse,
        p.2.rrf_dense, p.2.rrf_sparse⟩ : Cand))).map Cand.doc_id =
      (rrfScores dense sparse k).map Prod.fst := by
    rw [List.map_map]
    rfl
  exact List.Nodup.of_map Cand.doc_id (himg ▸ hkeys)

theorem pyTake_sublist (n : ℤ) (l : List α) : List.Sublist (pyTake n l) l := by
  rw [pyTake]
  by_cases h : 0 ≤ n
  · rw [if_pos h]; exact List.take_sublist _ _
  · rw [if_neg h]; exact List.take_sublist _ _

theorem pyTake_map (f : α → β) (n : ℤ) (l : List α) :
    (pyTake n l).map f = pyTake n (l.map f) := by
  rw [pyTake, pyTake, List.length_map]
  by_cases h : 0 ≤ n
  · rw [if_pos h, if_pos h, List.map_take]
  · rw [if_neg h, if_neg h, List.map_take]

theorem hybridSearch_def (dense sparse : List Hit) (alpha : ℚ) (k limit : ℤ) :
    hybridSearch dense sparse alpha k limit =
      pyTake limit ((fusedCandidates dense sparse alpha k).mergeSort
        (fun a b => decide (Cand.score b ≤ Cand.score a))) := rfl

theorem rrfTerm_getElem (k : ℤ) (hs : List Hit) (hnd : (hs.map Hit.id).Nodup)
    (i : ℕ) (hi : i < hs.length) :
    rrfTerm k hs (hs[i].id) = 1 / ((k : ℚ) + ((i : ℚ) + 1)) := by
  have hidx : hs.findIdx? (fun h => h.id == hs[i].id) = some i := by
    rw [List.findIdx?_eq_some_iff_getElem]
    refine ⟨hi, by simp, ?_⟩
    intro j hji
    have hne : hs[j].id ≠ hs[i].id := by
      intro he
      have hj : j < hs.length := lt_trans hji hi
      have hj2 : j < (hs.map Hit.id).length := by simpa using hj
      have hi2 : i < (hs.map Hit.id).length := by simpa using hi
      have h1 : (hs.map Hit.id)[j] = (hs.map Hit.id)[i] := by
        simpa using he
      have := (List.Nodup.getElem_inj_iff hnd).mp h1
      omega
    simp [hne]
  rw [rrfTerm, hidx]

theorem rrfTerm_nonneg (k : ℤ) (hs : List Hit) (d : String) (hk : 0 ≤ k) :
    0 ≤ rrfTerm k hs d := by
  rw [rrfTerm]
  cases hf : hs.findIdx? (fun h => h.id == d) with
  | none => exact le_refl 0
  | some i =>
    apply le_of_lt
    apply div_pos one_pos
    have h1 : (0 : ℚ) ≤ (k : ℚ) := by exact_mod_cast hk
    have h2 : (0 : ℚ) ≤ (i : ℚ) := Nat.cast_nonneg i
    linarith

theorem rrfTerm_pos_of_mem (k : ℤ) (hs : List Hit) (d : String) (hk : 0 ≤ k)
    (hd : d ∈ hs.map Hit.id) : 0 < rrfTerm k hs d := by
  obtain ⟨i, hi⟩ := exists_findIdx?_of_mem_ids hd
  rw [rrfTerm, hi]
  apply div_pos one_pos
  have h1 : (0 : ℚ) ≤ (k : ℚ) := by exact_mod_cast hk
  have h2 : (0 : ℚ) ≤ (i : ℚ) := Nat.cast_nonneg i
  linarith

theorem rrfTerm_zero_of_not_mem (k : ℤ) (hs : List Hit) (d : String)
    (hd : d ∉ hs.map Hit.id) : rrfTerm k hs d = 0 := by
  rw [rrfTerm, findIdx?_eq_none_of_not_mem hd]

theorem rrfTerm_pairwise (k : ℤ) (hs : List Hit)
    (hnd : (hs.map Hit.id).Nodup) (hk : 0 ≤ k) :
    (hs.map Hit.id).Pairwise (fun a b => rrfTerm k hs b ≤ rrfTerm k hs a) := by
  rw [List.pairwise_iff_getElem]
  intro i j hi hj hij
  have hi' : i < hs.length := by simpa using hi
  have hj' : j < hs.length := by simpa using hj
  have hei : (hs.map Hit.id)[i] = hs[i].id := by simp
  have hej : (hs.map Hit.id)[j] = hs[j].id := by simp
  rw [hei, hej, rrfTerm_getElem k hs hnd i hi', rrfTerm_getElem k hs hnd j hj']
  apply one_div_le_one_div_of_le
  · have h1 : (0 : ℚ) ≤ (k : ℚ) := by exact_mod_cast hk
    have h2 : (0 : ℚ) ≤ (i : ℚ) := Nat.cast_nonneg i
    linarith
  · have h3 : (i : ℚ) ≤ (j : ℚ) := by exact_mod_cast hij.le
    linarith

theorem rrfTerm_inj_on_mem (k : ℤ) (hs : List Hit) (hk : 0 ≤ k) {x y : String}
    (hx : x ∈ hs.map Hit.id) (hy : y ∈ hs.map Hit.id)
    (he : rrfTerm k hs x = rrfTerm k hs y) : x = y := by
  obtain ⟨i, hi⟩ := exists_findIdx?_of_mem_ids hx
  obtain ⟨j, hj⟩ := exists_findIdx?_of_mem_ids hy
  rw [rrfTerm, rrfTerm, hi, hj] at he
  have h1 : (0 : ℚ) ≤ (k : ℚ) := by exact_mod_cast hk
  have h2 : (0 : ℚ) ≤ (i : ℚ) := Nat.cast_nonneg i
  have h3 : (0 : ℚ) ≤ (j : ℚ) := Nat.cast_nonneg j
  have hki : (0 : ℚ) < (k : ℚ) + ((i : ℚ) + 1) := by linarith
  have hkj : (0 : ℚ) < (k : ℚ) + ((j : ℚ) + 1) := by linarith
  rw [div_eq_div_iff (ne_of_gt hki) (ne_of_gt hkj)] at he
  have hijq : (i : ℚ) = (j : ℚ) := by linarith
  have hij : i = j := by exact_mod_cast hijq
  subst hij
  obtain ⟨hlt, hpx, _⟩ := List.findIdx?_eq_some_iff_getElem.mp hi
  obtain ⟨hlt2, hpy, _⟩ := List.findIdx?_eq_some_iff_getElem.mp hj
  have hxx : hs[i].id = x := by simpa using hpx
  have hyy : hs[i].id = y := by simpa using hpy
  rw [← hxx, hyy]

theorem mkCand_score_one (dense sparse : List Hit) (k : ℤ) (d : String) :
    (mkCand dense sparse 1 k d).score = rrfTerm k dense d := by
  rw [mkCand]
  ring

theorem mkCand_score_zero (dense sparse : List Hit) (k : ℤ) (d : String) :
    (mkCand dense sparse 0 k d).score = rrfTerm k sparse d := by
  rw [mkCand]
  ring

theorem mkCand_injective (dense sparse : List Hit) (alpha : ℚ) (k : ℤ) :
    Function.Injective (mkCand dense sparse alpha k) := by
  intro d1 d2 he
  exact congrArg Cand.doc_id he

theorem candIds_perm_comm (dense sparse : List Hit)
    (hnd : (dense.map Hit.id).Nodup) (hns : (sparse.map Hit.id).Nodup) :
    (candIds sparse dense).Perm (candIds dense sparse) := by
  rw [List.perm_ext_iff_of_nodup (candIds_nodup sparse dense hns hnd)
    (candIds_nodup dense sparse hnd hns)]
  intro a
  rw [candIds, candIds, List.mem_append, List.mem_append,
    List.mem_filter, List.mem_filter]
  simp only [decide_eq_true_eq]
  by_cases hd : a ∈ dense.map Hit.id <;>
    by_cases hsp : a ∈ sparse.map Hit.id <;> simp [hd, hsp]

theorem map_doc_id_mkCand (dense sparse : List Hit) (alpha : ℚ) (k : ℤ)
    (ids : List String) :
    ((ids.map (mkCand dense sparse alpha k)).map Cand.doc_id) = ids := by
  rw [List.map_map]
  have h : (Cand.doc_id ∘ mkCand dense sparse alpha k) = fun d => d := by
    funext d
    rfl
  rw [h]
  simp

theorem degenerate_sorted (prim sec : List Hit) (k : ℤ)
    (hnp : (prim.map Hit.id).Nodup) (hk : 0 ≤ k)
    (g : String → Cand) (hg : ∀ d, (g d).score = rrfTerm k prim d) :
    ((candIds prim sec).map g).Pairwise
      (fun a b => Cand.score b ≤ Cand.score a) := by
  rw [List.pairwise_map, candIds, List.pairwise_append]
  refine ⟨?_, ?_, ?_⟩
  · exact (rrfTerm_pairwise k prim hnp hk).imp
      (fun hab => by rw [hg, hg]; exact hab)
  · rw [List.pairwise_iff_forall_sublist]
    intro a b hsub
    have hb : b ∈ (sec.map Hit.id).filter (fun d => d ∉ prim.map Hit.id) :=
      hsub.subset (by simp)
    rw [List.mem_filter] at hb
    have hb' : b ∉ prim.map Hit.id := by simpa using hb.2
    rw [hg, hg, rrfTerm_zero_of_not_mem k prim b hb']
    exact rrfTerm_nonneg k prim a hk
  · intro a ha b hb
    rw [List.mem_filter] at hb
    have hb' : b ∉ prim.map Hit.id := by simpa using hb.2
    rw [hg, hg, rrfTerm_zero_of_not_mem k prim b hb']
    exact rrfTerm_nonneg k prim a hk

theorem degenerate_stable (dense sparse : List Hit) (k : ℤ)
    (hnd : (dense.map Hit.id).Nodup) (hns : (sparse.map Hit.id).Nodup)
    (hk : 0 ≤ k) :
    ∀ a b : Cand, Cand.score a = Cand.score b →
      List.Sublist [a, b] ((candIds sparse dense).map (mkCand dense sparse 0 k)) →
      List.Sublist [a, b] ((candIds dense sparse).map (mkCand dense sparse 0 k)) := by
  intro a b hsc hsub
  rw [List.sublist_map_iff] at hsub
  obtain ⟨l', hsub', heq⟩ := hsub
  cases l' with
  | nil => exact absurd heq (by simp)
  | cons x rest =>
  cases rest with
  | nil => exact absurd heq (by simp)
  | cons y rest2 =>
  cases rest2 with
  | cons z r => exact absurd heq (by simp)
  | nil =>
  obtain ⟨hax, hby⟩ : a = mkCand dense sparse 0 k x ∧
      b = mkCand dense sparse 0 k y := by simpa using heq
  subst hax
  subst hby
  rw [mkCand_score_zero, mkCand_score_zero] at hsc
  suffices h : List.Sublist [x, y] (candIds dense sparse) by
    have hmap := h.map (mkCand dense sparse 0 k)
    simpa using hmap
  rw [candIds] at hsub'
  rw [List.sublist_append_iff] at hsub'
  obtain ⟨l1, l2, hsplit, h1, h2⟩ := hsub'
  cases l1 with
  | nil =>
    have hl2 : l2 = [x, y] := by simpa using hsplit.symm
    subst hl2
    have hfil : List.Sublist [x, y] (dense.map Hit.id) :=
      h2.trans (List.filter_sublist _)
    rw [candIds]
    exact hfil.trans (List.sublist_append_left _ _)
  | cons u l1' =>
  cases l1' with
  | nil =>
    obtain ⟨hxu, hl2⟩ : x = u ∧ [y] = l2 := by simpa using hsplit
    rw [← hxu] at h1
    rw [← hl2] at h2
    have hxmem : x ∈ sparse.map Hit.id := List.singleton_sublist.mp h1
    have hymem : y ∈ (dense.map Hit.id).filter
        (fun d => d ∉ sparse.map Hit.id) := List.singleton_sublist.mp h2
    have hyns : y ∉ sparse.map Hit.id := by
      rw [List.mem_filter] at hymem
      simpa using hymem.2
    exfalso
    have hpos : 0 < rrfTerm k sparse x := rrfTerm_pos_of_mem k sparse x hk hxmem
    rw [rrfTerm_zero_of_not_mem k sparse y hyns] at hsc
    rw [hsc] at hpos
    exact lt_irrefl 0 hpos
  | cons v l1'' =>
    obtain ⟨hxu, hyv, _⟩ : x = u ∧ y = v ∧ [] = l1'' ++ l2 := by
      simpa using hsplit
    have hx : x ∈ sparse.map Hit.id := by
      rw [hxu]
      exact h1.subset (by simp)
    have hy : y ∈ sparse.map Hit.id := by
      rw [hyv]
      exact h1.subset (by simp)
    have hxy : x = y := rrfTerm_inj_on_mem k sparse hk hx hy hsc
    exfalso
    have hnd2 : (u :: v :: l1'').Nodup := h1.nodup hns
    have hne : u ≠ v := by
      intro h
      rw [List.nodup_cons] at hnd2
      exact hnd2.1 (by rw [h]; exact List.mem_cons_self v l1'')
    apply hne
    rw [← hxu, ← hyv]
    exact hxy

/-! ### Claim theorems -/

/-- C8: for every call to `compute_all_metrics` where the retrieved list or
the judgment list is empty, the call returns (never raises) a result whose
recall, nDCG, MRR and hit-rate fields are all `0.0` and whose
`num_relevant_docs` and `num_retrieved_docs` are both `0`. -/
theorem compute_all_metrics_empty_inputs_zero (threshold : ℚ)
    (retrieved : List RetrievedDoc) (js : List RerankerJudgment)
    (k_values : List ℤ) (h : retrieved = [] ∨ js = []) :
    computeAllMetrics threshold retrieved js k_values =
      RetrievalMetricsResult.mk 0 0 0 0 0 0 0 0 0 0 0 0 := by
  unfold computeAllMetrics
  rw [if_pos h]
  rfl

/-- Witness for C8 at a concrete input: empty retrieved list, one judgment. -/
theorem compute_all_metrics_empty_inputs_zero_witness :
    (([] : List RetrievedDoc) = [] ∨ ([⟨"d", 1⟩] : List RerankerJudgment) = []) ∧
    computeAllMetrics (1 / 2) [] [⟨"d", 1⟩] [5, 10, 15] =
      RetrievalMetricsResult.mk 0 0 0 0 0 0 0 0 0 0 0 0 :=
  ⟨Or.inl rfl,
   compute_all_metrics_empty_inputs_zero (1 / 2) [] [⟨"d", 1⟩] [5, 10, 15] (Or.inl rfl)⟩

/-- C9: MRR equals `1/r` for the 1-based position `r` of the first binary
label equal to `1`, and `0.0` when none is `1`; in particular
`mrr [0,0,1,0] = 1/3`.  MRR is a single value, not K-indexed. -/
theorem mrr_reciprocal_first_relevant :
    (∀ l : List ℕ, mrr l =
      ((l.findIdx? (fun r => r == 1)).map
        (fun i : ℕ => 1 / ((i : ℚ) + 1))).getD 0) ∧
    mrr [0, 0, 1, 0] = 1 / 3 := by
  constructor
  · intro l
    rw [mrr, mrrAux_eq_findIdx]
    cases h : l.findIdx? (fun r => r == 1) with
    | none => simp
    | some j => simp [add_comm]
  · norm_num [mrr, mrrAux]

/-- C6 (code behaviour at the failing input): a pass-through `rerank` call
(`len(candidates) <= limit`) returns the candidates unchanged but does not
clear `last_relevance_scores`, so the judgment list observed for that call
is the previous call's non-empty list rather than the empty list the claim
requires. -/
theorem rerank_pass_through_keeps_stale_judgments :
    rerank (fun _ r _ s => (pyTake 1 r, s)) "query" ["candidate"] 5
        [⟨"stale", 9 / 10⟩] =
      (["candidate"], [⟨"stale", 9 / 10⟩]) ∧
    ([(⟨"stale", 9 / 10⟩ : RerankerJudgment)] ≠ []) := by
  constructor
  · rfl
  · simp

/-- C10: when the same doc id occurs more than once in the judgment list,
the relevance map keeps only the last occurrence's score (the score used for
the retrieved documents), its keys are exactly the distinct judged doc ids,
and `num_relevant` counts distinct doc ids whose last score meets the
threshold — not judgment entries. -/
theorem duplicate_judgments_last_wins (threshold : ℚ) (js : List RerankerJudgment) :
    (∀ d, dictGet? (relevanceMap js) d = lastRel js d) ∧
    ((relevanceMap js).map Prod.fst).Nodup ∧
    (∀ d, d ∈ (relevanceMap js).map Prod.fst ↔ d ∈ js.map (fun j => j.doc_id)) ∧
    numRelevant threshold js =
      (((relevanceMap js).map Prod.fst).filter
        (fun d => decide (threshold ≤ (lastRel js d).getD 0))).length := by
  refine ⟨fun d => relevanceMap_get js d, relevanceMap_keys_nodup js, ?_, ?_⟩
  · intro d
    rw [mem_keys_iff_isSome, relevanceMap_get, lastRel_isSome_iff]
  · rw [numRelevant, countP_values_eq_filter_keys _ _ (relevanceMap_keys_nodup js)]
    apply congrArg List.length
    apply List.filter_congr
    intro d _
    rw [relevanceMap_get]

/-- C2: Recall@K as used in `compute_all_metrics` equals the sum of the
binary relevance labels of the first K retrieved documents divided by the
number of judgments meeting the threshold (a ground-truth denominator
independent of retrieval), and is `0.0` when that number is `0`. -/
theorem recall_at_k_correct (threshold : ℚ) (retrieved : List RetrievedDoc)
    (js : List RerankerJudgment) (k : ℕ)
    (h : (js.map (fun j => j.doc_id)).Nodup) :
    recall_at_k (binaryRelevance threshold retrieved js) (numRelevant threshold js)
        (k : ℤ) =
      if (js.filter (fun j => decide (threshold ≤ j.relevance_score))).length = 0
      then 0
      else (((binaryRelevance threshold retrieved js).take k).sum : ℚ) /
        ((js.filter (fun j => decide (threshold ≤ j.relevance_score))).length : ℚ) := by
  have hnum : numRelevant threshold js =
      (js.filter (fun j => decide (threshold ≤ j.relevance_score))).length := by
    rw [numRelevant, relevanceMap_eq_of_nodup js h, List.map_map,
      List.countP_map, List.countP_eq_length_filter]
    rfl
  have hk : pyTake (k : ℤ) (binaryRelevance threshold retrieved js) =
      (binaryRelevance threshold retrieved js).take k := by
    rw [pyTake, if_pos (Int.natCast_nonneg k)]
    simp
  rw [recall_at_k, hnum, hk]

/-- Witness for C2 at a concrete input: two distinct judged docs, three
retrieved docs, K = 5. -/
theorem recall_at_k_correct_witness :
    (([⟨"a", 1⟩, ⟨"b", 1 / 4⟩] : List RerankerJudgment).map
      (fun j => j.doc_id)).Nodup ∧
    recall_at_k
        (binaryRelevance (1 / 2)
          [⟨some "a", none, none, "ta"⟩, ⟨some "c", none, none, "tc"⟩]
          [⟨"a", 1⟩, ⟨"b", 1 / 4⟩])
        (numRelevant (1 / 2) [⟨"a", 1⟩, ⟨"b", 1 / 4⟩]) ((5 : ℕ) : ℤ) =
      if (([⟨"a", 1⟩, ⟨"b", 1 / 4⟩] : List RerankerJudgment).filter
          (fun j => decide ((1 / 2 : ℚ) ≤ j.relevance_score))).length = 0
      then 0
      else (((binaryRelevance (1 / 2)
          [⟨some "a", none, none, "ta"⟩, ⟨some "c", none, none, "tc"⟩]
          [⟨"a", 1⟩, ⟨"b", 1 / 4⟩]).take 5).sum : ℚ) /
        ((([⟨"a", 1⟩, ⟨"b", 1 / 4⟩] : List RerankerJudgment).filter
          (fun j => decide ((1 / 2 : ℚ) ≤ j.relevance_score))).length : ℚ) :=
  ⟨by simp, recall_at_k_correct (1 / 2)
    [⟨some "a", none, none, "ta"⟩, ⟨some "c", none, none, "tc"⟩]
    [⟨"a", 1⟩, ⟨"b", 1 / 4⟩] 5 (by simp)⟩

/-- C7 (amended): `compute_all_metrics` performs no validation of
`k_values`: a non-positive K is not an error; `ndcg_at_k` returns `0.0`
whenever `k ≤ 0`. -/
theorem ndcg_nonpositive_k_returns_zero (scores : List ℚ) (k : ℤ) (hk : k ≤ 0) :
    ndcg_at_k scores k = 0 := by
  unfold ndcg_at_k
  rw [if_pos (Or.inr hk)]

/-- Witness for the amended C7 at `k = 0`. -/
theorem ndcg_nonpositive_k_returns_zero_witness :
    ((0 : ℤ) ≤ 0) ∧ ndcg_at_k [1, 1 / 2] 0 = 0 :=
  ⟨le_refl 0, ndcg_nonpositive_k_returns_zero [1, 1 / 2] 0 (le_refl 0)⟩

/-- C7 (counterexample to the claim as stated): a call whose `k_values`
contains the non-positive `0` does not raise — it returns an ordinary
metrics result (here with MRR `1` and all keyed fields left at their
defaults, since only the `*_at_0` keys were written). -/
theorem compute_all_metrics_accepts_nonpositive_k :
    computeAllMetrics (1 / 2) [⟨some "a", none, none, "t"⟩] [⟨"a", 1⟩] [0] =
      RetrievalMetricsResult.mk 0 0 0 0 0 0 1 0 0 0 1 1 := by
  have ht : toString (0 : ℤ) = "0" := rfl
  simp only [computeAllMetrics, retrievedRelevances, relevanceMap, dictInsert,
    dictContains, dictGet?, getDocId, binaryRelevance, numRelevant,
    recall_at_k, hit_rate_at_k, ndcg_at_k, mrr, mrrAux, pyTake, ht,
    List.foldl, RetrievalMetricsResult.mk.injEq]
  simp
  norm_num

/-- C5: fusing identical inputs twice produces identical output ordering and
scores (the embedding of the fusion is a pure function of its inputs), and
whenever two returned documents have exactly equal fused scores, the one
first encountered during dense-list iteration (the insertion order of
`rrf_scores`, i.e. `fusedCandidates`) is ranked first — never an arbitrary
map-iteration order. -/
theorem fuse_deterministic_and_stable (dense sparse : List Hit) (alpha : ℚ)
    (k limit : ℤ) :
    hybridSearch dense sparse alpha k limit =
      hybridSearch dense sparse alpha k limit ∧
    (hybridSearch dense sparse alpha k limit).Pairwise
      (fun a b => a.score = b.score →
        List.Sublist [a, b] (fusedCandidates dense sparse alpha k)) := by
  refine ⟨rfl, ?_⟩
  rw [hybridSearch_def]
  exact List.Pairwise.sublist (pyTake_sublist limit _)
    (mergeSort_stable_first_encounter Cand.score _
      (fusedCandidates_nodup dense sparse alpha k))

/-- C1: RRF fusion correctness: every returned document's fused score is
`alpha * 1/(k+r_dense) + (1-alpha) * 1/(k+r_sparse)` (`rrfTerm` is `0` for a
missing channel), the returned list is sorted by descending fused score, has
length `min limit (number of fused candidates)`, every fused candidate left
out scores no higher than every returned one, and the fused candidate pool
is exactly the dense documents followed by the sparse-only documents. -/
theorem hybrid_search_rrf_correct (dense sparse : List Hit) (alpha : ℚ)
    (k limit : ℤ)
    (hnd : (dense.map Hit.id).Nodup) (hns : (sparse.map Hit.id).Nodup)
    (htd : ∀ h ∈ dense, h.payload.text ≠ "")
    (hts : ∀ h ∈ sparse, h.payload.text ≠ "")
    (ha0 : 0 ≤ alpha) (ha1 : alpha ≤ 1) (hk : 0 ≤ k) :
    (∀ c ∈ hybridSearch dense sparse alpha k limit,
      c.score = alpha * rrfTerm k dense c.doc_id +
        (1 - alpha) * rrfTerm k sparse c.doc_id) ∧
    (hybridSearch dense sparse alpha k limit).Pairwise
      (fun a b => b.score ≤ a.score) ∧
    (0 ≤ limit → (hybridSearch dense sparse alpha k limit).length =
      min limit.toNat (candIds dense sparse).length) ∧
    (∀ c ∈ fusedCandidates dense sparse alpha k,
      c ∉ hybridSearch dense sparse alpha k limit →
      ∀ c' ∈ hybridSearch dense sparse alpha k limit, c.score ≤ c'.score) ∧
    (fusedCandidates dense sparse alpha k).map Cand.doc_id =
      candIds dense sparse := by
  have hfc := fusedCandidates_eq dense sparse alpha k hnd hns htd hts
  refine ⟨?_, ?_, ?_, ?_, ?_⟩
  · intro c hc
    rw [hybridSearch_def] at hc
    have hc1 := mem_of_mem_pyTake hc
    have hc2 : c ∈ fusedCandidates dense sparse alpha k :=
      List.mem_mergeSort.mp hc1
    rw [hfc] at hc2
    obtain ⟨d, _, hcd⟩ := List.mem_map.mp hc2
    rw [← hcd]
    rfl
  · rw [hybridSearch_def]
    exact List.Pairwise.sublist (pyTake_sublist limit _)
      (mergeSort_sorted_pairwise Cand.score _)
  · intro hl
    rw [hybridSearch_def, pyTake, if_pos hl, List.length_take,
      List.length_mergeSort, hfc, List.length_map]
  · intro c hcf hcnot c' hc'
    rw [hybridSearch_def] at hcnot hc'
    have hcs : c ∈ (fusedCandidates dense sparse alpha k).mergeSort
        (fun a b => decide (Cand.score b ≤ Cand.score a)) :=
      List.mem_mergeSort.mpr hcf
    have hex : ∃ t : ℕ,
        pyTake limit ((fusedCandidates dense sparse alpha k).mergeSort
          (fun a b => decide (Cand.score b ≤ Cand.score a))) =
        ((fusedCandidates dense sparse alpha k).mergeSort
          (fun a b => decide (Cand.score b ≤ Cand.score a))).take t := by
      rw [pyTake]
      by_cases h : 0 ≤ limit
      · rw [if_pos h]; exact ⟨limit.toNat, rfl⟩
      · rw [if_neg h]; exact ⟨_, rfl⟩
    obtain ⟨t, ht⟩ := hex
    rw [ht] at hcnot hc'
    have hcdrop : c ∈ ((fusedCandidates dense sparse alpha k).mergeSort
        (fun a b => decide (Cand.score b ≤ Cand.score a))).drop t := by
      have hsplit := List.take_append_drop t
        ((fusedCandidates dense sparse alpha k).mergeSort
          (fun a b => decide (Cand.score b ≤ Cand.score a)))
      have hcs' : c ∈ ((fusedCandidates dense sparse alpha k).mergeSort
          (fun a b => decide (Cand.score b ≤ Cand.score a))).take t ++
          ((fusedCandidates dense sparse alpha k).mergeSort
            (fun a b => decide (Cand.score b ≤ Cand.score a))).drop t := by
        rw [hsplit]
        exact hcs
      cases List.mem_append.mp hcs' with
      | inl h => exact absurd h hcnot
      | inr h => exact h
    have hpw := mergeSort_sorted_pairwise Cand.score
      (fusedCandidates dense sparse alpha k)
    rw [← List.take_append_drop t
      ((fusedCandidates dense sparse alpha k).mergeSort
        (fun a b => decide (Cand.score b ≤ Cand.score a)))] at hpw
    exact (List.pairwise_append.mp hpw).2.2 c' hc' c hcdrop
  · rw [hfc, List.map_map]
    have hcomp : (Cand.doc_id ∘ mkCand dense sparse alpha k) =
        fun d => d := rfl
    rw [hcomp, List.map_id']

/-- Witness for C1 at concrete two-element channels sharing one document,
with `alpha = 1/2`, `k = 60`, `limit = 2`. -/
theorem hybrid_search_rrf_correct_witness :
    ((denseW.map Hit.id).Nodup ∧ (sparseW.map Hit.id).Nodup ∧
      (∀ h ∈ denseW, h.payload.text ≠ "") ∧
      (∀ h ∈ sparseW, h.payload.text ≠ "") ∧
      ((0 : ℚ) ≤ 1 / 2) ∧ ((1 / 2 : ℚ) ≤ 1) ∧ ((0 : ℤ) ≤ 60)) ∧
    ((∀ c ∈ hybridSearch denseW sparseW (1 / 2) 60 2,
      c.score = (1 / 2) * rrfTerm 60 denseW c.doc_id +
        (1 - 1 / 2) * rrfTerm 60 sparseW c.doc_id) ∧
    (hybridSearch denseW sparseW (1 / 2) 60 2).Pairwise
      (fun a b => b.score ≤ a.score) ∧
    ((0 : ℤ) ≤ 2 → (hybridSearch denseW sparseW (1 / 2) 60 2).length =
      min (2 : ℤ).toNat (candIds denseW sparseW).length) ∧
    (∀ c ∈ fusedCandidates denseW sparseW (1 / 2) 60,
      c ∉ hybridSearch denseW sparseW (1 / 2) 60 2 →
      ∀ c' ∈ hybridSearch denseW sparseW (1 / 2) 60 2, c.score ≤ c'.score) ∧
    (fusedCandidates denseW sparseW (1 / 2) 60).map Cand.doc_id =
      candIds denseW sparseW) :=
  ⟨⟨by decide, by decide, by decide, by decide,
    by norm_num, by norm_num, by decide⟩,
   hybrid_search_rrf_correct denseW sparseW (1 / 2) 60 2
     (by decide) (by decide) (by decide) (by decide)
     (by norm_num) (by norm_num) (by decide)⟩

/-- C3: for relevance scores in `[0,1]` and `K > 0`, nDCG@K lies in
`[0,1]`, and equals exactly `1.0` whenever the retrieval order already
matches descending relevance order and IDCG@K is positive. -/
theorem ndcg_bounded_and_perfect_order (scores : List ℚ) (k : ℤ)
    (hs : ∀ s ∈ scores, 0 ≤ s ∧ s ≤ 1) (hk : 0 < k) :
    0 ≤ ndcg_at_k scores k ∧ ndcg_at_k scores k ≤ 1 ∧
    (scores.Pairwise (fun a b => b ≤ a) →
      0 < computeDCG (pyTake k (sortedDesc scores)) →
      ndcg_at_k scores k = 1) := by
  by_cases hemp : scores = []
  · subst hemp
    have h0 : ndcg_at_k [] k = 0 := by rw [ndcg_at_k, if_pos (Or.inl rfl)]
    refine ⟨by rw [h0], by rw [h0]; norm_num, ?_⟩
    intro _ hI
    exfalso
    have hsd : sortedDesc ([] : List ℚ) = [] := rfl
    have hpt : pyTake k ([] : List ℚ) = [] := by
      rw [pyTake]
      by_cases h0k : (0 : ℤ) ≤ k
      · rw [if_pos h0k, List.take_nil]
      · rw [if_neg h0k, List.take_nil]
    rw [hsd, hpt] at hI
    have : computeDCG ([] : List ℚ) = 0 := rfl
    rw [this] at hI
    exact lt_irrefl 0 hI
  · have hcond : ¬(scores = [] ∨ k ≤ 0) := by
      push_neg
      exact ⟨hemp, hk⟩
    have hndcg : ndcg_at_k scores k =
        (if computeDCG (pyTake k (sortedDesc scores)) = 0 then 0
         else computeDCG (pyTake k scores) /
           computeDCG (pyTake k (sortedDesc scores))) := by
      rw [ndcg_at_k, if_neg hcond]
    have hDnn : 0 ≤ computeDCG (pyTake k scores) := by
      apply computeDCG_nonneg
      intro x hx
      exact (hs x (mem_of_mem_pyTake hx)).1
    have hInn : 0 ≤ computeDCG (pyTake k (sortedDesc scores)) := by
      apply computeDCG_nonneg
      intro x hx
      have hx' : x ∈ sortedDesc scores := mem_of_mem_pyTake hx
      have hx'' : x ∈ scores := by
        rw [sortedDesc] at hx'
        exact (List.perm_insertionSort _ scores).mem_iff.mp hx'
      exact (hs x hx'').1
    have hDI : computeDCG (pyTake k scores) ≤
        computeDCG (pyTake k (sortedDesc scores)) := by
      have h0k : (0 : ℤ) ≤ k := hk.le
      have e1 : pyTake k scores = scores.take k.toNat := by rw [pyTake, if_pos h0k]
      have e2 : pyTake k (sortedDesc scores) = (sortedDesc scores).take k.toNat := by
        rw [pyTake, if_pos h0k]
      rw [e1, e2]
      exact computeDCG_take_le scores k.toNat
    by_cases hI0 : computeDCG (pyTake k (sortedDesc scores)) = 0
    · rw [hndcg, if_pos hI0]
      refine ⟨le_refl 0, by norm_num, ?_⟩
      intro _ hIpos
      rw [hI0] at hIpos
      exact absurd hIpos (lt_irrefl 0)
    · have hIpos : 0 < computeDCG (pyTake k (sortedDesc scores)) :=
        lt_of_le_of_ne hInn (Ne.symm hI0)
      rw [hndcg, if_neg hI0]
      refine ⟨div_nonneg hDnn hInn, (div_le_one hIpos).mpr hDI, ?_⟩
      intro hsorted _
      have hsd : sortedDesc scores = scores := List.Sorted.insertionSort_eq hsorted
      rw [hsd]
      exact div_self (by rw [hsd] at hI0; exact hI0)

/-- Witness for C3 at a concrete input: scores `[1, 1/2]` in descending
order, K = 2. -/
theorem ndcg_bounded_and_perfect_order_witness :
    (∀ s ∈ ([1, 1 / 2] : List ℚ), 0 ≤ s ∧ s ≤ 1) ∧ ((0 : ℤ) < 2) ∧
    (0 ≤ ndcg_at_k [1, 1 / 2] 2 ∧ ndcg_at_k [1, 1 / 2] 2 ≤ 1 ∧
      (([1, 1 / 2] : List ℚ).Pairwise (fun a b => b ≤ a) →
        0 < computeDCG (pyTake 2 (sortedDesc [1, 1 / 2])) →
        ndcg_at_k [1, 1 / 2] 2 = 1)) :=
  ⟨by norm_num, by norm_num,
   ndcg_bounded_and_perfect_order [1, 1 / 2] 2 (by norm_num) (by norm_num)⟩

/-- C4: degenerate alpha values reduce hybrid search to a single channel.
With `alpha = 1` the returned doc ids are the dense ranking followed by the
sparse-only documents (all fused scores `alpha*rrf_dense`), truncated to
`limit`; with `alpha = 0` they are the sparse ranking followed by the
dense-only documents, truncated to `limit`.  Hypotheses: duplicate-free ids
per channel, non-empty payload texts (so no hit is skipped), and `0 ≤ k`
(in Python `k + rank = 0` would raise `ZeroDivisionError`). -/
theorem hybrid_search_degenerate_alpha (dense sparse : List Hit) (k limit : ℤ)
    (hnd : (dense.map Hit.id).Nodup) (hns : (sparse.map Hit.id).Nodup)
    (htd : ∀ h ∈ dense, h.payload.text ≠ "")
    (hts : ∀ h ∈ sparse, h.payload.text ≠ "")
    (hk : 0 ≤ k) :
    (hybridSearch dense sparse 1 k limit).map Cand.doc_id =
      pyTake limit (dense.map Hit.id ++
        (sparse.map Hit.id).filter (fun d => d ∉ dense.map Hit.id)) ∧
    (hybridSearch dense sparse 0 k limit).map Cand.doc_id =
      pyTake limit (sparse.map Hit.id ++
        (dense.map Hit.id).filter (fun d => d ∉ sparse.map Hit.id)) := by
  have hfc1 := fusedCandidates_eq dense sparse 1 k hnd hns htd hts
  have hfc0 := fusedCandidates_eq dense sparse 0 k hnd hns htd hts
  constructor
  · have hsorted := degenerate_sorted dense sparse k hnd hk
      (mkCand dense sparse 1 k) (fun d => mkCand_score_one dense sparse k d)
    have hms : (fusedCandidates dense sparse 1 k).mergeSort
        (fun a b => decide (Cand.score b ≤ Cand.score a)) =
        (candIds dense sparse).map (mkCand dense sparse 1 k) := by
      apply mergeSort_eq_of_stable Cand.score _ _
        (fusedCandidates_nodup dense sparse 1 k)
      · rw [hfc1]
      · exact hsorted
      · intro a b _ hsub
        rw [hfc1]
        exact hsub
    rw [hybridSearch_def, hms, pyTake_map, map_doc_id_mkCand]
    rfl
  · have hsorted := degenerate_sorted sparse dense k hns hk
      (mkCand dense sparse 0 k) (fun d => mkCand_score_zero dense sparse k d)
    have hms : (fusedCandidates dense sparse 0 k).mergeSort
        (fun a b => decide (Cand.score b ≤ Cand.score a)) =
        (candIds sparse dense).map (mkCand dense sparse 0 k) := by
      apply mergeSort_eq_of_stable Cand.score _ _
        (fusedCandidates_nodup dense sparse 0 k)
      · rw [hfc0]
        exact (candIds_perm_comm dense sparse hnd hns).map _
      · exact hsorted
      · intro a b hab hsub
        rw [hfc0]
        exact degenerate_stable dense sparse k hnd hns hk a b hab hsub
    rw [hybridSearch_def, hms, pyTake_map, map_doc_id_mkCand]
    rfl

/-- Witness for C4 at the concrete two-element channels, `k = 60`,
`limit = 2`: `alpha = 1` yields dense order, `alpha = 0` sparse order. -/
theorem hybrid_search_degenerate_alpha_witness :
    ((denseW.map Hit.id).Nodup ∧ (sparseW.map Hit.id).Nodup ∧
      (∀ h ∈ denseW, h.payload.text ≠ "") ∧
      (∀ h ∈ sparseW, h.payload.text ≠ "") ∧ ((0 : ℤ) ≤ 60)) ∧
    ((hybridSearch denseW sparseW 1 60 2).map Cand.doc_id =
      pyTake 2 (denseW.map Hit.id ++
        (sparseW.map Hit.id).filter (fun d => d ∉ denseW.map Hit.id)) ∧
     (hybridSearch denseW sparseW 0 60 2).map Cand.doc_id =
      pyTake 2 (sparseW.map Hit.id ++
        (denseW.map Hit.id).filter (fun d => d ∉ sparseW.map Hit.id))) :=
  ⟨⟨by decide, by decide, by decide, by decide, by decide⟩,
   hybrid_search_degenerate_alpha denseW sparseW 60 2
     (by decide) (by decide) (by decide) (by decide) (by decide)⟩

end ShoppingAssistant
